import Mathlib

/-!
Shallow embedding of the Tetris HTTP bot (files `tetris_strategy.py` and
`tetris_bot_http.py`).

A board row arrives as a JSON object that may or may not carry a `line`
field and a `cells` field; accessing a missing key raises `KeyError` in
Python, which we model with `Except Unit`.  Cells are integer tags with
`0` = empty and positive = occupied, modelled as `Nat`.
-/

deriving instance DecidableEq for Except

namespace Tetris

/-- One row of the polled board: optional `line` index and optional `cells`
sequence, mirroring a Python dict that may lack either key. -/
structure Row where
  line? : Option Nat
  cells? : Option (List Nat)
deriving Repr, DecidableEq

/-- A polled board snapshot: the `matrix` list of rows, in arrival order. -/
abbrev Matrix := List Row

/-- `self.matrix_width` in both source files. -/
def matrix_width : Nat := 10

/-- `self.matrix_height` in both source files. -/
def matrix_height : Nat := 20

/-- Exact rational value `num / den`, with `den` positive at every
construction site; models the Python float arithmetic the bot performs
(which is exact on these small values) while keeping every operation
kernel-reducible. -/
structure Frac where
  num : Int
  den : Int
deriving Repr, DecidableEq

/-- Embed an integer. -/
def Frac.ofInt (n : Int) : Frac := ⟨n, 1⟩

instance (n : Nat) : OfNat Frac n := ⟨⟨(n : Int), 1⟩⟩

/-- Exact division of two integers (callers pass a positive divisor). -/
def Frac.div (a b : Int) : Frac := ⟨a, b⟩

/-- Exact subtraction. -/
def Frac.sub (a b : Frac) : Frac :=
  ⟨a.num * b.den - b.num * a.den, a.den * b.den⟩

instance : Sub Frac := ⟨Frac.sub⟩

/-- Order by cross multiplication (correct because dens are positive). -/
def Frac.lt (a b : Frac) : Prop := a.num * b.den < b.num * a.den

instance : LT Frac := ⟨Frac.lt⟩

instance (a b : Frac) : Decidable (a < b) :=
  inferInstanceAs (Decidable (a.num * b.den < b.num * a.den))

/-- All randomness `decide_move` may draw in one call, made explicit so that
theorems can quantify over every outcome of the random source. -/
structure Oracle where
  randEmpty : Fin 4
  rotLine : Bool
  rotMin : Bool
  rotMinCW : Bool
  rotBasic : Bool
  rotBasicCW : Bool
  dropBasic : Bool
  weighted : Fin 4
deriving Repr, DecidableEq

/-- `random.choice(['LEFT', 'RIGHT', 'DOWN', 'ROTATE_CW'])` in
`TetrisStrategy._random_move`. -/
def random_move (o : Oracle) : String :=
  ["LEFT", "RIGHT", "DOWN", "ROTATE_CW"].getD o.randEmpty.val "LEFT"

/-- Inner loop of `TetrisStrategy._get_column_heights`: scan the rows in
arrival order; the first row whose `cells` entry at `col` is occupied sets
the height to `matrix_height - row["line"]` (KeyError if `line` missing);
`0` if no row matches. -/
def colHeight (m : Matrix) (col : Nat) : Except Unit Int :=
  match m with
  | [] => Except.ok 0
  | r :: rest =>
    match r.cells? with
    | some cs =>
      if col < cs.length ∧ 0 < cs.getD col 0 then
        match r.line? with
        | some l => Except.ok ((matrix_height : Int) - (l : Int))
        | none => Except.error ()
      else colHeight rest col
    | none => colHeight rest col

/-- Outer loop of `_get_column_heights` over the columns `0, …, width-1`. -/
def heightsAux (m : Matrix) : List Nat → Except Unit (List Int)
  | [] => Except.ok []
  | c :: cs => do
    let h ← colHeight m c
    let rest ← heightsAux m cs
    return h :: rest

/-- `TetrisStrategy._get_column_heights`. -/
def get_column_heights (m : Matrix) : Except Unit (List Int) :=
  heightsAux m (List.range matrix_width)

/-- One row of pass 1 of `TetrisStrategy._count_holes`: update the running
`column_tops` with the row's occupied cells. -/
def columnTopsRow (tops : List Nat) (l : Nat) (cs : List Nat) : List Nat :=
  (List.range matrix_width).map fun col =>
    if col < min cs.length matrix_width ∧ 0 < cs.getD col 0 then
      min (tops.getD col matrix_height) l
    else tops.getD col matrix_height

/-- Pass 1 of `_count_holes`: fold `columnTopsRow` over the rows.  A row
with `cells` but no `line` raises (`row["line"]`). -/
def column_tops : Matrix → List Nat → Except Unit (List Nat)
  | [], tops => Except.ok tops
  | r :: rest, tops =>
    match r.cells? with
    | none => column_tops rest tops
    | some cs =>
      match r.line? with
      | none => Except.error ()
      | some l => column_tops rest (columnTopsRow tops l cs)

/-- One row of pass 2 of `_count_holes`: cells that are `0` at a line index
strictly below that column's top. -/
def holesInRow (tops : List Nat) (r : Row) : Except Unit Nat :=
  match r.cells? with
  | none => Except.ok 0
  | some cs =>
    match r.line? with
    | none => Except.error ()
    | some l =>
      Except.ok (((List.range (min cs.length matrix_width)).filter
        (fun col => decide (cs.getD col 0 = 0 ∧ tops.getD col matrix_height < l))).length)

/-- Pass 2 of `_count_holes` summed over the rows. -/
def holes_pass2 (tops : List Nat) : Matrix → Except Unit Nat
  | [] => Except.ok 0
  | r :: rest => do
    let h ← holesInRow tops r
    let hs ← holes_pass2 tops rest
    return h + hs

/-- `TetrisStrategy._count_holes`. -/
def count_holes (m : Matrix) : Except Unit Nat := do
  let tops ← column_tops m (List.replicate matrix_width matrix_height)
  holes_pass2 tops m

/-- `TetrisStrategy._calculate_bumpiness`. -/
def calculate_bumpiness (heights : List Int) : Int :=
  if heights = [] then 0
  else ((List.range (heights.length - 1)).map
    (fun i => |heights.getD i 0 - heights.getD (i + 1) 0|)).sum

/-- The search for a matching previous row in `_identify_active_piece`:
first previous row with the same `line` value that also has `cells`. -/
def findLastRow (prev : Matrix) (ln : Nat) : Option Row :=
  prev.find? (fun lr => lr.line? == some ln && lr.cells?.isSome)

/-- The per-row body of `_identify_active_piece`: cells occupied now that
were empty in the matching previous row, compared up to the shorter of the
two cell sequences. -/
def activeCellsInRow (prev : Matrix) (r : Row) : Except Unit (List (Nat × Nat)) :=
  match r.cells? with
  | none => Except.ok []
  | some cs =>
    match r.line? with
    | none => Except.error ()
    | some ln =>
      match findLastRow prev ln with
      | none => Except.ok []
      | some lr =>
        let lastCells := lr.cells?.getD []
        Except.ok (((List.range (min cs.length lastCells.length)).filter
          (fun col => decide (0 < cs.getD col 0 ∧ lastCells.getD col 0 = 0))).map
          (fun col => (ln, col)))

/-- Loop of `_identify_active_piece` over the current rows. -/
def activeCells (prev : Matrix) : Matrix → Except Unit (List (Nat × Nat))
  | [] => Except.ok []
  | r :: rest => do
    let a ← activeCellsInRow prev r
    let b ← activeCells prev rest
    return a ++ b

/-- `TetrisStrategy._identify_active_piece`; `none` models Python `None`
(returned when the previous matrix is falsy or no new cell was found). -/
def identify_active_piece (m : Matrix) (prev : Option Matrix) :
    Except Unit (Option (List (Nat × Nat))) :=
  match prev with
  | none => Except.ok none
  | some pm =>
    if pm = [] then Except.ok none
    else do
      let a ← activeCells pm m
      return (if a = [] then none else some a)

/-- Python `int(...)` applied to a rational value: truncation toward zero
(the denominator is positive at every call site, so the sign of the value
is the sign of `num`, and `Int.fdiv` by a positive integer is the floor). -/
def pyInt (q : Frac) : Int :=
  if 0 ≤ q.num then q.num.fdiv q.den else -((-q.num).fdiv q.den)

/-- Per-row body of `TetrisStrategy._identify_potential_lines`: rows whose
occupied-cell count is at least 7 contribute `(line, filled)` (KeyError if
`line` missing while `cells` present). -/
def potentialInRow (r : Row) : Except Unit (List (Nat × Nat)) :=
  match r.cells? with
  | none => Except.ok []
  | some cs =>
    match r.line? with
    | none => Except.error ()
    | some ln =>
      let filled := cs.countP (fun c => decide (0 < c))
      Except.ok (if 7 ≤ filled then [(ln, filled)] else [])

/-- Loop of `_identify_potential_lines` over the rows. -/
def potentialLinesAux : Matrix → Except Unit (List (Nat × Nat))
  | [] => Except.ok []
  | r :: rest => do
    let a ← potentialInRow r
    let b ← potentialLinesAux rest
    return a ++ b

/-- `TetrisStrategy._identify_potential_lines`. -/
def identify_potential_lines (m : Matrix) : Except Unit (List (Nat × Nat)) :=
  potentialLinesAux m

/-- One comparison step of Python's `max` with a key: a later element
replaces the running maximum only when its key is strictly greater. -/
def pyMaxStep (acc : Option (Nat × Nat)) (p : Nat × Nat) : Option (Nat × Nat) :=
  match acc with
  | none => some p
  | some q => if q.2 < p.2 then some p else some q

/-- Python `max(potential_lines, key=lambda x: x[1])`: the first element
whose key is maximal. -/
def pyMaxByFill (l : List (Nat × Nat)) : Option (Nat × Nat) :=
  l.foldl pyMaxStep none

/-- Python `heights.index(min(heights))`: first index of the minimal value. -/
def pyMinIndex (l : List Int) : Nat :=
  l.indexOf ((l.min?).getD 0)

/-- Python `heights.index(max(heights))`: first index of the maximal value. -/
def pyMaxIndex (l : List Int) : Nat :=
  l.indexOf ((l.max?).getD 0)

/-- `TetrisStrategy._get_target_column`: first `0` cell (in row scan order
over rows whose `line` equals the target) or the horizontal midpoint
`matrix_width / 2` (Python float division, hence a rational). -/
def get_target_column (m : Matrix) (targetRow : Nat) : Frac :=
  match m.findSome? (fun r =>
      match r.line?, r.cells? with
      | some ln, some cs =>
        if ln = targetRow then cs.findIdx? (fun c => c == 0) else none
      | _, _ => none) with
  | some c => Frac.ofInt (c : Int)
  | none => Frac.div (matrix_width : Int) 2

/-- The potential-line branch of `TetrisStrategy._plan_action_sequence`:
up to 3 horizontal moves toward the target column, an optional
`ROTATE_CW` (probability 0.3), a trailing `DROP`, truncated to 5. -/
def plan_line_actions (m : Matrix) (targetRow : Nat)
    (active : List (Nat × Nat)) (o : Oracle) : List String :=
  let avgCol : Frac :=
    Frac.div (active.map (fun c => (c.2 : Int))).sum (active.length : Int)
  let tgt := get_target_column m targetRow
  let moves : List String :=
    if avgCol < tgt then List.replicate (min 3 (pyInt (tgt - avgCol))).toNat "RIGHT"
    else List.replicate (min 3 (pyInt (avgCol - tgt))).toNat "LEFT"
  let withRot := if o.rotLine then moves ++ ["ROTATE_CW"] else moves
  (withRot ++ ["DROP"]).take 5

/-- `TetrisStrategy._plan_minimal_height_sequence`: up to 3 horizontal
moves toward the first lowest column, an optional rotation (probability
0.4, uniformly CW/CCW), a trailing `DROP`, truncated to 4. -/
def plan_minimal_height_sequence (heights : List Int)
    (active : List (Nat × Nat)) (o : Oracle) : List String :=
  let lowestCol : Nat := pyMinIndex heights
  let pieceCols := active.map (fun c => c.2)
  let avgCol : Frac :=
    if pieceCols = [] then 5
    else Frac.div (pieceCols.map (fun c => (c : Int))).sum (pieceCols.length : Int)
  let lowF : Frac := Frac.ofInt (lowestCol : Int)
  let moves : List String :=
    if avgCol < lowF then
      List.replicate (min 3 (pyInt (lowF - avgCol))).toNat "RIGHT"
    else List.replicate (min 3 (pyInt (avgCol - lowF))).toNat "LEFT"
  let withRot :=
    if o.rotMin then moves ++ [if o.rotMinCW then "ROTATE_CW" else "ROTATE_CCW"]
    else moves
  (withRot ++ ["DROP"]).take 4

/-- `TetrisStrategy._plan_action_sequence`, returning the new value of
`self.current_action_sequence` (the mutation target in Python). -/
def plan_action_sequence (m : Matrix) (heights : List Int)
    (active : Option (List (Nat × Nat))) (o : Oracle) : Except Unit (List String) :=
  match active with
  | none => Except.ok []
  | some ac =>
    if ac = [] then Except.ok []
    else do
      let pls ← identify_potential_lines m
      match pyMaxByFill pls with
      | some target => return plan_line_actions m target.1 ac o
      | none => return plan_minimal_height_sequence heights ac o

/-- `random.choices(['LEFT','RIGHT','DOWN','ROTATE_CW'], weights=...)` in
`TetrisStrategy._basic_strategy`: the drawn element. -/
def weighted_choice (o : Oracle) : String :=
  ["LEFT", "RIGHT", "DOWN", "ROTATE_CW"].getD o.weighted.val "LEFT"

/-- Branch 1 of `TetrisStrategy._basic_strategy` (`holes > 3`): steer the
first active cell toward the first lowest column; `none` models Python
falling through to the next branch. -/
def basicBranch1 (heights : List Int) (holes : Nat)
    (active : Option (List (Nat × Nat))) : Option String :=
  if 3 < holes then
    match active with
    | some (c :: _) =>
      some (if c.2 < pyMinIndex heights then "RIGHT"
            else if pyMinIndex heights < c.2 then "LEFT"
            else "DROP")
    | _ => none
  else none

/-- Branch 2 of `_basic_strategy` (`bumpiness > 5`): move away from the
first tallest column when the first active cell sits on it. -/
def basicBranch2 (heights : List Int) (bumpiness : Int)
    (active : Option (List (Nat × Nat))) : Option String :=
  if 5 < bumpiness then
    match active with
    | some (c :: _) =>
      if c.2 = pyMaxIndex heights then
        some (if Frac.div (matrix_width : Int) 2 < Frac.ofInt (pyMaxIndex heights : Int)
          then "LEFT" else "RIGHT")
      else none
    | _ => none
  else none

/-- `TetrisStrategy._basic_strategy`. -/
def basic_strategy (heights : List Int) (holes : Nat) (bumpiness : Int)
    (active : Option (List (Nat × Nat))) (o : Oracle) : String :=
  match basicBranch1 heights holes active with
  | some s => s
  | none =>
    match basicBranch2 heights bumpiness active with
    | some s => s
    | none =>
      if o.rotBasic then (if o.rotBasicCW then "ROTATE_CW" else "ROTATE_CCW")
      else if o.dropBasic then "DROP"
      else weighted_choice o

/-- Mutable fields of `TetrisStrategy` read and written by `decide_move`. -/
structure StrategyState where
  last_matrix : Option Matrix
  current_action_sequence : List String
deriving Repr, DecidableEq

/-- `TetrisStrategy.decide_move`: returns the command and the updated
strategy state, or an error when the Python code would raise. -/
def decide_move (st : StrategyState) (m : Matrix) (o : Oracle) :
    Except Unit (String × StrategyState) :=
  if m = [] then Except.ok (random_move o, st)
  else
    let prev := st.last_matrix
    let st1 : StrategyState := ⟨some m, st.current_action_sequence⟩
    match st1.current_action_sequence with
    | a :: rest => Except.ok (a, ⟨st1.last_matrix, rest⟩)
    | [] => do
      let heights ← get_column_heights m
      let holes ← count_holes m
      let bumpiness := calculate_bumpiness heights
      let active ← identify_active_piece m prev
      let seq ← plan_action_sequence m heights active o
      match seq with
      | a :: rest => return (a, ⟨st1.last_matrix, rest⟩)
      | [] => return (basic_strategy heights holes bumpiness active o, ⟨st1.last_matrix, []⟩)

/-- Iterate `decide_move` over a list of `(snapshot, randomness)` inputs,
collecting the emitted commands. -/
def run_moves (st : StrategyState) :
    List (Matrix × Oracle) → Except Unit (List String × StrategyState)
  | [] => Except.ok ([], st)
  | (m, o) :: rest => do
    let (c, st1) ← decide_move st m o
    let (cs, st2) ← run_moves st1 rest
    return (c :: cs, st2)

/-! ## Session Driver (`TetrisBot.game_loop`, one loop iteration) -/

/-- Fields of `TetrisBot` (plus the loop locals) read and written by one
iteration of `game_loop`. -/
structure BotState where
  game_paused : Bool
  last_pause_check : Frac
  last_matrix_update : Frac
  connection_errors : Nat
  last_matrix : Option Matrix
deriving Repr, DecidableEq

/-- External observations available to one loop iteration: the clock, the
status responses of the up-to-four `get_status` calls and the `get_matrix`
result.  A status response is `none` for no usable reply (error, empty
body, falsy dict) and `some s?` for a dict whose `state` field is `s?`. -/
structure TickEnv where
  now : Frac
  statusA : Option (Option String)
  statusB : Option (Option String)
  matrix : Matrix
  statusC : Option (Option String)
  statusD : Option (Option String)
deriving Repr, DecidableEq

/-- Python `status and status.get('state') == 'PAUSED'`, coerced to the
truth value the loop observes. -/
def isPausedResp (st : Option (Option String)) : Bool :=
  st == some (some "PAUSED")

/-- The periodic pause check at the top of `game_loop` (runs only when
more than `pause_check_interval = 3` seconds have passed). -/
def pauseCheckUpdate (st : BotState) (e : TickEnv) : BotState :=
  if 3 < e.now - st.last_pause_check then
    let paused : Bool :=
      match e.statusA with
      | some (some s) =>
        if s = "PAUSED" ∧ st.game_paused = false then isPausedResp e.statusB
        else if s = "PLAYING" ∧ st.game_paused = true then false
        else decide (s = "PAUSED")
      | _ => st.game_paused
    { st with game_paused := paused, last_pause_check := e.now }
  else st

/-- Result of one `game_loop` iteration: the new driver state, whether the
board snapshot was fetched (`get_matrix` called) and whether the Move
Planner (`decide_next_move`) was invoked. -/
structure TickResult where
  state : BotState
  fetched : Bool
  planned : Bool
deriving Repr, DecidableEq

/-- One iteration of `TetrisBot.game_loop`. -/
def game_tick (st : BotState) (e : TickEnv) : TickResult :=
  let st1 := pauseCheckUpdate st e
  if st1.game_paused then
    ⟨st1, false, false⟩
  else if e.matrix ≠ [] then
    ⟨{ st1 with connection_errors := 0, last_matrix_update := e.now,
                last_matrix := some e.matrix }, true, true⟩
  else
    let st2 : BotState := { st1 with connection_errors := st1.connection_errors + 1 }
    let st3 : BotState :=
      if 5 < e.now - st2.last_matrix_update then
        let p : Bool :=
          match e.statusC with
          | none => st2.game_paused
          | some sf =>
            if sf = some "PAUSED" then isPausedResp e.statusD else false
        { st2 with game_paused := p, last_matrix_update := e.now }
      else st2
    let st4 : BotState :=
      if 5 ≤ st3.connection_errors then { st3 with connection_errors := 0 } else st3
    ⟨st4, true, false⟩

/-! ## Well-formedness of snapshots (the §3 data model) -/

/-- Every row that carries a `cells` field also carries a `line` field
(a Row of the §3 data model always has both). -/
def wf_lines (m : Matrix) : Bool :=
  m.all fun r => r.cells?.isNone || r.line?.isSome

/-- Every `line` value is a valid 0-based index from the top of the
20-row board. -/
def wf_bounds (m : Matrix) : Bool :=
  m.all fun r =>
    match r.line? with
    | some l => decide (l < matrix_height)
    | none => true

/-- `true` when the rows appear in strictly ascending `line` order
(rows without a `line` are unconstrained). -/
def lineLtB (r1 r2 : Row) : Bool :=
  match r1.line?, r2.line? with
  | some l1, some l2 => decide (l1 < l2)
  | _, _ => true

/-- The snapshot's rows are sorted by strictly ascending line index. -/
def sorted_by_line : Matrix → Bool
  | [] => true
  | r :: rest => rest.all (fun r2 => lineLtB r r2) && sorted_by_line rest

/-- All line values of the snapshot's rows are pairwise distinct. -/
def distinct_lines (m : Matrix) : Bool :=
  decide (m.filterMap (fun r => r.line?)).Nodup

/-! ## Spec-side definitions (the claims' words, for comparison) -/

/-- The line value of `r` when `r` has an occupied entry at `col`. -/
def occLineAt (r : Row) (col : Nat) : Option Nat :=
  match r.cells? with
  | some cs => if col < cs.length ∧ 0 < cs.getD col 0 then r.line? else none
  | none => none

/-- Minimum of two optional values (`none` = no value yet). -/
def omin : Option Nat → Option Nat → Option Nat
  | none, b => b
  | some a, none => some a
  | some a, some b => some (min a b)

/-- The claim's "minimum line index over all rows whose cells sequence has
an occupied entry at `col`". -/
def minOccLine (m : Matrix) (col : Nat) : Option Nat :=
  m.foldr (fun r acc => omin (occLineAt r col) acc) none

/-- The heights the claim describes: `board_height - (topmost occupied
line)` per column, `0` when the column is empty. -/
def heightsClaim (m : Matrix) : List Int :=
  (List.range matrix_width).map fun col =>
    match minOccLine m col with
    | some l => (matrix_height : Int) - (l : Int)
    | none => 0

/-- `true` when some row of `m` has an occupied entry at `col` on a line
strictly above (smaller than) `l`. -/
def occupiedAboveB (m : Matrix) (l col : Nat) : Bool :=
  m.any fun r =>
    match r.line?, r.cells? with
    | some l2, some cs =>
      decide (l2 < l) && decide (col < min cs.length matrix_width) &&
        decide (0 < cs.getD col 0)
    | _, _ => false

/-- The claim's hole count: cells that are empty and have at least one
occupied cell above them (at a lower line number) in the same column. -/
def holesSpec (m : Matrix) : Nat :=
  (m.map fun r =>
    match r.cells?, r.line? with
    | some cs, some l =>
      ((List.range (min cs.length matrix_width)).filter
        (fun col => (cs.getD col 0 == 0) && occupiedAboveB m l col)).length
    | _, _ => 0).sum

/-- The claim's tie-break: the LAST element whose fill count is maximal
(a later element replaces the running maximum when greater or equal). -/
def lastMaxByFill (l : List (Nat × Nat)) : Option (Nat × Nat) :=
  l.foldl (fun acc p =>
    match acc with
    | none => some p
    | some q => if q.2 ≤ p.2 then some p else some q) none

/-! ## Basic monadic and well-formedness lemmas -/

theorem ok_bind {α β : Type} (a : α) (f : α → Except Unit β) :
    (Except.ok a >>= f : Except Unit β) = f a := rfl

theorem wf_lines_cons {r : Row} {rest : Matrix} (h : wf_lines (r :: rest) = true) :
    (r.cells?.isNone || r.line?.isSome) = true ∧ wf_lines rest = true := by
  simpa [wf_lines] using h

theorem wf_lines_line {r : Row} {rest : Matrix} (h : wf_lines (r :: rest) = true)
    {cs : List Nat} (hc : r.cells? = some cs) : ∃ l, r.line? = some l := by
  obtain ⟨h1, _⟩ := wf_lines_cons h
  cases hl : r.line? with
  | some l => exact ⟨l, rfl⟩
  | none => simp [hc, hl, Option.isNone, Option.isSome] at h1

theorem wf_bounds_cons {r : Row} {rest : Matrix} (h : wf_bounds (r :: rest) = true) :
    (∀ l, r.line? = some l → l < matrix_height) ∧ wf_bounds rest = true := by
  rw [wf_bounds, List.all_cons, Bool.and_eq_true] at h
  refine ⟨fun l hl => ?_, h.2⟩
  have := h.1
  rw [hl] at this
  simpa using this

/-! ## Column heights: success and characterization -/

theorem colHeight_cons_none {r : Row} {rest : Matrix} {col : Nat}
    (hc : r.cells? = none) :
    colHeight (r :: rest) col = colHeight rest col := by
  rw [colHeight]
  simp only [hc]

theorem colHeight_cons_skip {r : Row} {rest : Matrix} {col : Nat} {cs : List Nat}
    (hc : r.cells? = some cs) (hcond : ¬(col < cs.length ∧ 0 < cs.getD col 0)) :
    colHeight (r :: rest) col = colHeight rest col := by
  rw [colHeight]
  simp only [hc]
  rw [if_neg hcond]

theorem colHeight_cons_hit {r : Row} {rest : Matrix} {col : Nat} {cs : List Nat}
    {l : Nat} (hc : r.cells? = some cs) (hl : r.line? = some l)
    (hcond : col < cs.length ∧ 0 < cs.getD col 0) :
    colHeight (r :: rest) col = Except.ok ((matrix_height : Int) - (l : Int)) := by
  rw [colHeight]
  simp only [hc]
  rw [if_pos hcond]
  simp only [hl]

theorem colHeight_cons_err {r : Row} {rest : Matrix} {col : Nat} {cs : List Nat}
    (hc : r.cells? = some cs) (hl : r.line? = none)
    (hcond : col < cs.length ∧ 0 < cs.getD col 0) :
    colHeight (r :: rest) col = Except.error () := by
  rw [colHeight]
  simp only [hc]
  rw [if_pos hcond]
  simp only [hl]

theorem colHeight_ok {m : Matrix} (h : wf_lines m = true) (col : Nat) :
    ∃ v, colHeight m col = Except.ok v := by
  induction m with
  | nil => exact ⟨0, rfl⟩
  | cons r rest ih =>
    obtain ⟨h1, h2⟩ := wf_lines_cons h
    cases hc : r.cells? with
    | none =>
      obtain ⟨v, hv⟩ := ih h2
      exact ⟨v, by rw [colHeight_cons_none hc]; exact hv⟩
    | some cs =>
      by_cases hcond : col < cs.length ∧ 0 < cs.getD col 0
      · obtain ⟨l, hl⟩ := wf_lines_line h hc
        exact ⟨_, colHeight_cons_hit hc hl hcond⟩
      · obtain ⟨v, hv⟩ := ih h2
        exact ⟨v, by rw [colHeight_cons_skip hc hcond]; exact hv⟩

theorem colHeight_shape {m : Matrix} (col : Nat) {v : Int}
    (h : colHeight m col = Except.ok v) :
    v = 0 ∨ ∃ r ∈ m, ∃ l, r.line? = some l ∧ v = (matrix_height : Int) - (l : Int) := by
  induction m with
  | nil =>
    left
    rw [colHeight] at h
    exact (Except.ok.injEq _ _).mp h.symm
  | cons r rest ih =>
    cases hc : r.cells? with
    | none =>
      rw [colHeight_cons_none hc] at h
      rcases ih h with h0 | ⟨r', hr', l, hl, hv⟩
      · exact Or.inl h0
      · exact Or.inr ⟨r', List.mem_cons_of_mem _ hr', l, hl, hv⟩
    | some cs =>
      by_cases hcond : col < cs.length ∧ 0 < cs.getD col 0
      · cases hl : r.line? with
        | none => rw [colHeight_cons_err hc hl hcond] at h; exact Except.noConfusion h
        | some l =>
          rw [colHeight_cons_hit hc hl hcond] at h
          right
          exact ⟨r, List.mem_cons_self _ _, l, hl,
            ((Except.ok.injEq _ _).mp h).symm⟩
      · rw [colHeight_cons_skip hc hcond] at h
        rcases ih h with h0 | ⟨r', hr', l, hl, hv⟩
        · exact Or.inl h0
        · exact Or.inr ⟨r', List.mem_cons_of_mem _ hr', l, hl, hv⟩

theorem heightsAux_map {m : Matrix} {f : Nat → Int} (cols : List Nat)
    (h : ∀ c ∈ cols, colHeight m c = Except.ok (f c)) :
    heightsAux m cols = Except.ok (cols.map f) := by
  induction cols with
  | nil => rfl
  | cons c cs ih =>
    rw [heightsAux]
    show (colHeight m c >>= fun h => heightsAux m cs >>= fun rest =>
      pure (h :: rest)) = _
    rw [h c (List.mem_cons_self _ _), ok_bind,
      ih (fun x hx => h x (List.mem_cons_of_mem _ hx)), ok_bind]
    rfl

/-! ## C1: sorted snapshots give the minimum-line heights -/

theorem sorted_cons {r : Row} {rest : Matrix}
    (h : sorted_by_line (r :: rest) = true) :
    (∀ r2 ∈ rest, lineLtB r r2 = true) ∧ sorted_by_line rest = true := by
  rw [sorted_by_line, Bool.and_eq_true, List.all_eq_true] at h
  exact h

theorem occLineAt_no_cells {r : Row} {col : Nat} (hc : r.cells? = none) :
    occLineAt r col = none := by
  rw [occLineAt]
  simp only [hc]

theorem occLineAt_skip {r : Row} {col : Nat} {cs : List Nat}
    (hc : r.cells? = some cs) (hcond : ¬(col < cs.length ∧ 0 < cs.getD col 0)) :
    occLineAt r col = none := by
  rw [occLineAt]
  simp only [hc]
  rw [if_neg hcond]

theorem occLineAt_hit {r : Row} {col : Nat} {cs : List Nat}
    (hc : r.cells? = some cs) (hcond : col < cs.length ∧ 0 < cs.getD col 0) :
    occLineAt r col = r.line? := by
  rw [occLineAt]
  simp only [hc]
  rw [if_pos hcond]

theorem minOccLine_cons (r : Row) (rest : Matrix) (col : Nat) :
    minOccLine (r :: rest) col = omin (occLineAt r col) (minOccLine rest col) := rfl

theorem minOccLine_mem {m : Matrix} {col l : Nat}
    (h : minOccLine m col = some l) :
    ∃ r ∈ m, occLineAt r col = some l := by
  induction m with
  | nil => cases h
  | cons r rest ih =>
    have h' : omin (occLineAt r col) (minOccLine rest col) = some l :=
      (minOccLine_cons r rest col) ▸ h
    cases ho : occLineAt r col with
    | none =>
      rw [ho, omin] at h'
      obtain ⟨r', hr', hx⟩ := ih h'
      exact ⟨r', List.mem_cons_of_mem _ hr', hx⟩
    | some a =>
      cases hrest : minOccLine rest col with
      | none =>
        rw [ho, hrest, omin] at h'
        exact ⟨r, List.mem_cons_self _ _, ho.trans h'⟩
      | some b =>
        rw [ho, hrest, omin, Option.some.injEq] at h'
        rcases Nat.le_total a b with hab | hab
        · rw [Nat.min_eq_left hab] at h'
          exact ⟨r, List.mem_cons_self _ _, by rw [ho, h']⟩
        · rw [Nat.min_eq_right hab] at h'
          obtain ⟨r', hr', hx⟩ := ih (by rw [hrest, h'])
          exact ⟨r', List.mem_cons_of_mem _ hr', hx⟩

theorem occLineAt_line {r : Row} {col l : Nat} (h : occLineAt r col = some l) :
    r.line? = some l := by
  cases hc : r.cells? with
  | none => rw [occLineAt_no_cells hc] at h; exact Option.noConfusion h
  | some cs =>
    by_cases hcond : col < cs.length ∧ 0 < cs.getD col 0
    · rw [occLineAt_hit hc hcond] at h
      exact h
    · rw [occLineAt_skip hc hcond] at h
      exact Option.noConfusion h

theorem colHeight_sorted {m : Matrix} (h1 : wf_lines m = true)
    (h2 : sorted_by_line m = true) (col : Nat) :
    colHeight m col = Except.ok
      (match minOccLine m col with
       | some l => (matrix_height : Int) - (l : Int)
       | none => 0) := by
  induction m with
  | nil => rfl
  | cons r rest ih =>
    obtain ⟨hw1, hw2⟩ := wf_lines_cons h1
    obtain ⟨hs1, hs2⟩ := sorted_cons h2
    have hfold : minOccLine (r :: rest) col =
        omin (occLineAt r col) (minOccLine rest col) := rfl
    cases hc : r.cells? with
    | none =>
      have ho : occLineAt r col = none := occLineAt_no_cells hc
      rw [colHeight_cons_none hc, hfold, ho, omin]
      exact ih hw2 hs2
    | some cs =>
      by_cases hcond : col < cs.length ∧ 0 < cs.getD col 0
      · obtain ⟨l, hl⟩ := wf_lines_line h1 hc
        have ho : occLineAt r col = some l := (occLineAt_hit hc hcond).trans hl
        rw [colHeight_cons_hit hc hl hcond, hfold, ho]
        cases hrest : minOccLine rest col with
        | none => rw [omin]
        | some b =>
          obtain ⟨r', hr', hx⟩ := minOccLine_mem hrest
          have hlt : l < b := by
            have := hs1 r' hr'
            rw [lineLtB, hl, occLineAt_line hx] at this
            simpa using this
          have hmin : min l b = l := Nat.min_eq_left (Nat.le_of_lt hlt)
          rw [omin, hmin]
      · have ho : occLineAt r col = none := occLineAt_skip hc hcond
        rw [colHeight_cons_skip hc hcond, hfold, ho, omin]
        exact ih hw2 hs2

/-- C1: the claim fails on the code: on a snapshot whose rows are not
sorted by line index, `_get_column_heights` uses the first row in
snapshot order, not the topmost (minimum-line) occupied cell, so the
heights are not `board_height - min line` and depend on row order. -/
def mC1 : Matrix := [⟨some 19, some [1]⟩, ⟨some 5, some [1]⟩]

/-- C1 counterexample: on the unsorted two-row snapshot `mC1` the
Analyzer returns height 1 for column 0 (from line 19, the first row in
snapshot order), while the claim's minimum-line formula gives 15. -/
theorem C1_counterexample :
    get_column_heights mC1 ≠ Except.ok (heightsClaim mC1) := by decide

/-- C1 (amended): for a well-formed snapshot whose rows are sorted by
strictly ascending line index, the Analyzer's heights equal
`board_height - (minimum line index of an occupied cell)` per column and
`0` for an empty column; on unsorted snapshots the first row in snapshot
order wins instead, so the result is order-dependent. -/
theorem C1_heights_sorted (m : Matrix) (h1 : wf_lines m = true)
    (h2 : sorted_by_line m = true) :
    get_column_heights m = Except.ok (heightsClaim m) := by
  rw [get_column_heights, heightsClaim]
  exact heightsAux_map _ (fun c _ => colHeight_sorted h1 h2 c)

/-- Concrete instantiation of `C1_heights_sorted` on a sorted snapshot. -/
def mC1s : Matrix := [⟨some 5, some [1]⟩, ⟨some 19, some [1]⟩]

/-- C1 witness: the amended claim evaluated on the sorted snapshot
`mC1s`. -/
theorem C1_heights_sorted_witness :
    wf_lines mC1s = true ∧ sorted_by_line mC1s = true ∧
      get_column_heights mC1s = Except.ok (heightsClaim mC1s) :=
  ⟨by decide, by decide, C1_heights_sorted mC1s (by decide) (by decide)⟩

/-! ## C2: FIFO draining of the action sequence -/

/-- The value of `last_matrix` after a run: each call on a non-empty
snapshot overwrites it. -/
def finalLast (last : Option Matrix) (inputs : List (Matrix × Oracle)) : Option Matrix :=
  inputs.foldl (fun _ p => some p.1) last

theorem decide_move_pop (last : Option Matrix) (a : String) (rest : List String)
    {m : Matrix} (hm : m ≠ []) (o : Oracle) :
    decide_move ⟨last, a :: rest⟩ m o = Except.ok (a, ⟨some m, rest⟩) := by
  rw [decide_move, if_neg hm]

/-- C2: while the Planner's action sequence holds `N` commands, the next
`N` calls to `decide_move` on non-empty snapshots return exactly those
commands in order, one per call, removing only the head each time and
never re-planning, leaving the sequence empty. -/
theorem C2_fifo_drain (last : Option Matrix) (seq : List String)
    (inputs : List (Matrix × Oracle))
    (hlen : inputs.length = seq.length)
    (hne : ∀ p ∈ inputs, p.1 ≠ []) :
    run_moves ⟨last, seq⟩ inputs =
      Except.ok (seq, ⟨finalLast last inputs, []⟩) := by
  induction inputs generalizing last seq with
  | nil =>
    cases seq with
    | nil => rfl
    | cons a as => simp at hlen
  | cons p rest ih =>
    obtain ⟨m, o⟩ := p
    cases seq with
    | nil => simp at hlen
    | cons a as =>
      have hm : m ≠ [] := hne (m, o) (List.mem_cons_self _ _)
      have hd := decide_move_pop last a as hm o
      have hr := ih (some m) as (by simpa using hlen)
        (fun q hq => hne q (List.mem_cons_of_mem _ hq))
      rw [run_moves]
      show (decide_move ⟨last, a :: as⟩ m o >>= fun x =>
        run_moves x.2 rest >>= fun y => pure (x.1 :: y.1, y.2)) = _
      rw [hd, ok_bind]
      show (run_moves ⟨some m, as⟩ rest >>= fun y => pure (a :: y.1, y.2)) = _
      rw [hr, ok_bind]
      rfl

/-- Shared singleton snapshot used by concrete witnesses. -/
def mPlain : Matrix := [⟨some 19, some [1, 0, 0, 0, 0, 0, 0, 0, 0, 0]⟩]

/-- Shared all-false randomness outcome used by concrete witnesses. -/
def o0 : Oracle := ⟨0, false, false, false, false, false, false, 0⟩

/-- C2 witness: a literal 4-command sequence `[RIGHT, RIGHT, ROTATE_CW,
DROP]` is drained FIFO by four calls on non-empty snapshots. -/
theorem C2_fifo_drain_witness :
    run_moves ⟨none, ["RIGHT", "RIGHT", "ROTATE_CW", "DROP"]⟩
        [(mPlain, o0), (mPlain, o0), (mPlain, o0), (mPlain, o0)] =
      Except.ok (["RIGHT", "RIGHT", "ROTATE_CW", "DROP"],
        ⟨finalLast none [(mPlain, o0), (mPlain, o0), (mPlain, o0), (mPlain, o0)], []⟩) :=
  C2_fifo_drain none _ _ (by decide) (by decide)

/-! ## C6: the Session Driver does not suppress planning on GAME_OVER -/

/-- C6 failing input, driver side: not paused, pause check due. -/
def stC6 : BotState := ⟨false, 0, 0, 0, none⟩

/-- C6 failing input, environment side: the status endpoint reports
`GAME_OVER` and a non-empty board snapshot is available. -/
def envC6 : TickEnv :=
  ⟨10, some (some "GAME_OVER"), none,
   [⟨some 0, some [0, 0, 0, 0, 0, 0, 0, 0, 0, 0]⟩], none, none⟩

/-- C6: the claim is violated by the code: `game_loop` classifies a
`GAME_OVER` status as "not paused" (there is no game-over state in the
driver at all), so on the very tick that observes `GAME_OVER` from
`PLAYING` it still fetches the board snapshot and invokes the Move
Planner, and the resulting state suppresses nothing. -/
theorem C6_game_over_not_suppressed :
    (game_tick stC6 envC6).fetched = true ∧
      (game_tick stC6 envC6).planned = true ∧
      (game_tick stC6 envC6).state.game_paused = false := by decide

/-! ## Success of the Analyzer and Planner on well-formed snapshots -/

theorem wf_lines_mem {m : Matrix} (h : wf_lines m = true) {r : Row} (hr : r ∈ m)
    {cs : List Nat} (hc : r.cells? = some cs) : ∃ l, r.line? = some l := by
  rw [wf_lines, List.all_eq_true] at h
  have h2 := h r hr
  cases hl : r.line? with
  | some l => exact ⟨l, rfl⟩
  | none => rw [hc, hl] at h2; simp at h2

theorem wf_bounds_mem {m : Matrix} (h : wf_bounds m = true) {r : Row} (hr : r ∈ m)
    {l : Nat} (hl : r.line? = some l) : l < matrix_height := by
  rw [wf_bounds, List.all_eq_true] at h
  have h2 := h r hr
  rw [hl] at h2
  simpa using h2

theorem column_tops_ok {m : Matrix} (h : wf_lines m = true) (tops0 : List Nat) :
    ∃ tops, column_tops m tops0 = Except.ok tops := by
  induction m generalizing tops0 with
  | nil => exact ⟨tops0, rfl⟩
  | cons r rest ih =>
    obtain ⟨h1, h2⟩ := wf_lines_cons h
    cases hc : r.cells? with
    | none =>
      obtain ⟨tops, ht⟩ := ih h2 tops0
      exact ⟨tops, by rw [column_tops]; simp only [hc]; exact ht⟩
    | some cs =>
      obtain ⟨l, hl⟩ := wf_lines_line h hc
      obtain ⟨tops, ht⟩ := ih h2 (columnTopsRow tops0 l cs)
      exact ⟨tops, by rw [column_tops]; simp only [hc, hl]; exact ht⟩

theorem holesInRow_no_cells {tops : List Nat} {r : Row} (hc : r.cells? = none) :
    holesInRow tops r = Except.ok 0 := by
  rw [holesInRow]
  simp only [hc]

theorem holesInRow_eval {tops : List Nat} {r : Row} {cs : List Nat} {l : Nat}
    (hc : r.cells? = some cs) (hl : r.line? = some l) :
    holesInRow tops r = Except.ok (((List.range (min cs.length matrix_width)).filter
      (fun col => decide (cs.getD col 0 = 0 ∧ tops.getD col matrix_height < l))).length) := by
  rw [holesInRow]
  simp only [hc, hl]

theorem holes_pass2_sum {tops : List Nat} {g : Row → Nat} {m2 : Matrix}
    (h : ∀ r ∈ m2, holesInRow tops r = Except.ok (g r)) :
    holes_pass2 tops m2 = Except.ok ((m2.map g).sum) := by
  induction m2 with
  | nil => rfl
  | cons r rest ih =>
    rw [holes_pass2]
    show (holesInRow tops r >>= fun a => holes_pass2 tops rest >>= fun b =>
      pure (a + b)) = _
    rw [h r (List.mem_cons_self _ _), ok_bind,
      ih (fun x hx => h x (List.mem_cons_of_mem _ hx)), ok_bind]
    rfl

theorem holes_pass2_ok {tops : List Nat} {m2 : Matrix} (h : wf_lines m2 = true) :
    ∃ n, holes_pass2 tops m2 = Except.ok n := by
  induction m2 with
  | nil => exact ⟨0, rfl⟩
  | cons r rest ih =>
    obtain ⟨h1, h2⟩ := wf_lines_cons h
    obtain ⟨n, hn⟩ := ih h2
    cases hc : r.cells? with
    | none =>
      refine ⟨0 + n, ?_⟩
      rw [holes_pass2]
      show (holesInRow tops r >>= fun a => holes_pass2 tops rest >>= fun b =>
        pure (a + b)) = _
      rw [holesInRow_no_cells hc, ok_bind, hn, ok_bind]
      rfl
    | some cs =>
      obtain ⟨l, hl⟩ := wf_lines_line h hc
      refine ⟨((List.range (min cs.length matrix_width)).filter
        (fun col => decide (cs.getD col 0 = 0 ∧
          tops.getD col matrix_height < l))).length + n, ?_⟩
      rw [holes_pass2]
      show (holesInRow tops r >>= fun a => holes_pass2 tops rest >>= fun b =>
        pure (a + b)) = _
      rw [holesInRow_eval hc hl, ok_bind, hn, ok_bind]
      rfl

theorem count_holes_ok {m : Matrix} (h : wf_lines m = true) :
    ∃ n, count_holes m = Except.ok n := by
  obtain ⟨tops, ht⟩ := column_tops_ok h (List.replicate matrix_width matrix_height)
  obtain ⟨n, hn⟩ := @holes_pass2_ok tops m h
  refine ⟨n, ?_⟩
  rw [count_holes]
  show (column_tops m (List.replicate matrix_width matrix_height) >>= fun tops =>
    holes_pass2 tops m) = _
  rw [ht, ok_bind, hn]

theorem activeCellsInRow_ok {pm : Matrix} {r : Row}
    (h : ∀ cs, r.cells? = some cs → ∃ l, r.line? = some l) :
    ∃ a, activeCellsInRow pm r = Except.ok a := by
  cases hc : r.cells? with
  | none => exact ⟨[], by rw [activeCellsInRow]; simp only [hc]⟩
  | some cs =>
    obtain ⟨l, hl⟩ := h cs hc
    cases hf : findLastRow pm l with
    | none => exact ⟨[], by rw [activeCellsInRow]; simp only [hc, hl, hf]⟩
    | some lr =>
      refine ⟨((List.range (min cs.length (lr.cells?.getD []).length)).filter
        (fun col => decide (0 < cs.getD col 0 ∧
          (lr.cells?.getD []).getD col 0 = 0))).map (fun col => (l, col)), ?_⟩
      rw [activeCellsInRow]
      simp only [hc, hl, hf]

theorem activeCells_ok (pm : Matrix) {m2 : Matrix} (h : wf_lines m2 = true) :
    ∃ a, activeCells pm m2 = Except.ok a := by
  induction m2 with
  | nil => exact ⟨[], rfl⟩
  | cons r rest ih =>
    obtain ⟨h1, h2⟩ := wf_lines_cons h
    obtain ⟨b, hb⟩ := ih h2
    obtain ⟨a, ha⟩ := @activeCellsInRow_ok pm r
      (fun cs hc => wf_lines_line h hc)
    refine ⟨a ++ b, ?_⟩
    rw [activeCells]
    show (activeCellsInRow pm r >>= fun a => activeCells pm rest >>= fun b =>
      pure (a ++ b)) = _
    rw [ha, ok_bind, hb, ok_bind]
    rfl

theorem identify_active_piece_ok {m : Matrix} (h : wf_lines m = true)
    (prev : Option Matrix) :
    ∃ a, identify_active_piece m prev = Except.ok a := by
  cases prev with
  | none => exact ⟨none, rfl⟩
  | some pm =>
    by_cases hpm : pm = []
    · exact ⟨none, by rw [identify_active_piece]; rw [if_pos hpm]⟩
    · obtain ⟨a, ha⟩ := activeCells_ok pm h
      refine ⟨if a = [] then none else some a, ?_⟩
      rw [identify_active_piece, if_neg hpm]
      show (activeCells pm m >>= fun a =>
        pure (if a = [] then none else some a)) = _
      rw [ha, ok_bind]
      rfl

theorem potentialInRow_no_cells {r : Row} (hc : r.cells? = none) :
    potentialInRow r = Except.ok [] := by
  rw [potentialInRow]
  simp only [hc]

theorem potentialInRow_eval {r : Row} {cs : List Nat} {l : Nat}
    (hc : r.cells? = some cs) (hl : r.line? = some l) :
    potentialInRow r = Except.ok
      (if 7 ≤ cs.countP (fun c => decide (0 < c)) then
        [(l, cs.countP (fun c => decide (0 < c)))] else []) := by
  rw [potentialInRow]
  simp only [hc, hl]

theorem potentialLinesAux_ok {m2 : Matrix} (h : wf_lines m2 = true) :
    ∃ a, potentialLinesAux m2 = Except.ok a := by
  induction m2 with
  | nil => exact ⟨[], rfl⟩
  | cons r rest ih =>
    obtain ⟨h1, h2⟩ := wf_lines_cons h
    obtain ⟨b, hb⟩ := ih h2
    have ha : ∃ a, potentialInRow r = Except.ok a := by
      cases hc : r.cells? with
      | none => exact ⟨[], potentialInRow_no_cells hc⟩
      | some cs =>
        obtain ⟨l, hl⟩ := wf_lines_line h hc
        exact ⟨_, potentialInRow_eval hc hl⟩
    obtain ⟨a, ha⟩ := ha
    refine ⟨a ++ b, ?_⟩
    rw [potentialLinesAux]
    show (potentialInRow r >>= fun a => potentialLinesAux rest >>= fun b =>
      pure (a ++ b)) = _
    rw [ha, ok_bind, hb, ok_bind]
    rfl

/-! ## Shapes of the planned action sequences -/

theorem mem_ite_replicate {P : Prop} [Decidable P] {k j : Nat} {a b c : String}
    (h : c ∈ (if P then List.replicate k a else List.replicate j b)) :
    c = a ∨ c = b := by
  by_cases hp : P
  · rw [if_pos hp] at h
    exact Or.inl (List.mem_replicate.mp h).2
  · rw [if_neg hp] at h
    exact Or.inr (List.mem_replicate.mp h).2

theorem mem_plan_shape {mv : List String} {rot : String} {useRot : Bool} {n : Nat}
    {c : String} (hc : c ∈ ((if useRot then mv ++ [rot] else mv) ++ ["DROP"]).take n)
    (hmv : ∀ x ∈ mv, x ≠ "") (hrot : rot ≠ "") : c ≠ "" := by
  have h1 := List.take_subset _ _ hc
  rcases List.mem_append.mp h1 with h2 | h2
  · cases useRot with
    | false =>
      rw [if_neg (by simp)] at h2
      exact hmv c h2
    | true =>
      rw [if_pos rfl] at h2
      rcases List.mem_append.mp h2 with h3 | h3
      · exact hmv c h3
      · rw [List.mem_singleton] at h3
        subst h3
        exact hrot
  · rw [List.mem_singleton] at h2
    subst h2
    simp

theorem plan_shape_ne_nil {mv : List String} {rot : String} {useRot : Bool} {n : Nat}
    (hn : 0 < n) :
    ((if useRot then mv ++ [rot] else mv) ++ ["DROP"]).take n ≠ [] := by
  intro h
  have h2 := congrArg List.length h
  rw [List.length_take, List.length_append] at h2
  simp only [List.length_nil] at h2
  simp only [List.length_singleton] at h2
  omega

theorem plan_line_actions_ne_nil (m : Matrix) (tr : Nat) (ac : List (Nat × Nat))
    (o : Oracle) : plan_line_actions m tr ac o ≠ [] :=
  plan_shape_ne_nil (by omega)

theorem plan_minimal_ne_nil (heights : List Int) (ac : List (Nat × Nat))
    (o : Oracle) : plan_minimal_height_sequence heights ac o ≠ [] :=
  plan_shape_ne_nil (by omega)

theorem plan_line_actions_mem {m : Matrix} {tr : Nat} {ac : List (Nat × Nat)}
    {o : Oracle} {c : String} (hc : c ∈ plan_line_actions m tr ac o) : c ≠ "" :=
  mem_plan_shape hc (fun x hx => by
    rcases mem_ite_replicate hx with h | h <;> subst h <;> decide) (by decide)

theorem plan_minimal_mem {heights : List Int} {ac : List (Nat × Nat)}
    {o : Oracle} {c : String} (hc : c ∈ plan_minimal_height_sequence heights ac o) :
    c ≠ "" :=
  mem_plan_shape hc (fun x hx => by
    rcases mem_ite_replicate hx with h | h <;> subst h <;> decide)
    (by cases o.rotMinCW <;> simp)

theorem getD_cmds_ne {i : Nat} :
    (["LEFT", "RIGHT", "DOWN", "ROTATE_CW"].getD i "LEFT") ≠ "" := by
  match i with
  | 0 => decide
  | 1 => decide
  | 2 => decide
  | 3 => decide
  | n + 4 =>
    rw [List.getD_eq_default _ _ (by simp)]
    decide

theorem weighted_choice_ne (o : Oracle) : weighted_choice o ≠ "" := getD_cmds_ne

theorem random_move_ne (o : Oracle) : random_move o ≠ "" := getD_cmds_ne

theorem plan_none (m : Matrix) (heights : List Int) (o : Oracle) :
    plan_action_sequence m heights none o = Except.ok [] := rfl

theorem plan_some (m : Matrix) (heights : List Int) (ac : List (Nat × Nat))
    (o : Oracle) :
    plan_action_sequence m heights (some ac) o =
      (if ac = [] then Except.ok [] else
        (identify_potential_lines m >>= fun pls =>
          match pyMaxByFill pls with
          | some target => pure (plan_line_actions m target.1 ac o)
          | none => pure (plan_minimal_height_sequence heights ac o))) := rfl

theorem plan_action_sequence_ok {m : Matrix} (h : wf_lines m = true)
    (heights : List Int) (active : Option (List (Nat × Nat))) (o : Oracle) :
    ∃ s, plan_action_sequence m heights active o = Except.ok s := by
  cases active with
  | none => exact ⟨[], rfl⟩
  | some ac =>
    rw [plan_some]
    by_cases hac : ac = []
    · exact ⟨[], by rw [if_pos hac]⟩
    · rw [if_neg hac]
      obtain ⟨pls, hpls⟩ := potentialLinesAux_ok h
      have hpe : identify_potential_lines m = Except.ok pls := hpls
      rw [hpe, ok_bind]
      cases hmax : pyMaxByFill pls with
      | some target => exact ⟨plan_line_actions m target.1 ac o, rfl⟩
      | none => exact ⟨plan_minimal_height_sequence heights ac o, rfl⟩

theorem plan_action_sequence_cases {m : Matrix} {heights : List Int}
    {ac : List (Nat × Nat)} {o : Oracle} {s : List String}
    (h : plan_action_sequence m heights (some ac) o = Except.ok s)
    (hac : ac ≠ []) :
    ∃ pls, identify_potential_lines m = Except.ok pls ∧
      ((∃ target, pyMaxByFill pls = some target ∧
        s = plan_line_actions m target.1 ac o) ∨
       (pyMaxByFill pls = none ∧ s = plan_minimal_height_sequence heights ac o)) := by
  rw [plan_some, if_neg hac] at h
  cases hpls : identify_potential_lines m with
  | error e => rw [hpls] at h; exact Except.noConfusion h
  | ok pls =>
    rw [hpls, ok_bind] at h
    refine ⟨pls, rfl, ?_⟩
    cases hmax : pyMaxByFill pls with
    | some target =>
      rw [hmax] at h
      exact Or.inl ⟨target, rfl, ((Except.ok.injEq _ _).mp h).symm⟩
    | none =>
      rw [hmax] at h
      exact Or.inr ⟨rfl, ((Except.ok.injEq _ _).mp h).symm⟩

theorem plan_action_sequence_nonempty {m : Matrix} {heights : List Int}
    {a : Nat × Nat} {ac : List (Nat × Nat)} {o : Oracle} {s : List String}
    (h : plan_action_sequence m heights (some (a :: ac)) o = Except.ok s) :
    s ≠ [] := by
  obtain ⟨pls, _, hcase⟩ := plan_action_sequence_cases h (List.cons_ne_nil a ac)
  rcases hcase with ⟨target, _, hs⟩ | ⟨_, hs⟩
  · rw [hs]
    exact plan_line_actions_ne_nil _ _ _ _
  · rw [hs]
    exact plan_minimal_ne_nil _ _ _

theorem plan_action_sequence_mem {m : Matrix} {heights : List Int}
    {active : Option (List (Nat × Nat))} {o : Oracle} {s : List String}
    (h : plan_action_sequence m heights active o = Except.ok s) :
    ∀ c ∈ s, c ≠ "" := by
  cases active with
  | none =>
    rw [plan_none] at h
    have hs : s = [] := ((Except.ok.injEq _ _).mp h).symm
    subst hs
    intro c hc
    cases hc
  | some ac =>
    by_cases hac : ac = []
    · rw [plan_some, if_pos hac] at h
      have hs : s = [] := ((Except.ok.injEq _ _).mp h).symm
      subst hs
      intro c hc
      cases hc
    · obtain ⟨pls, _, hcase⟩ := plan_action_sequence_cases h hac
      rcases hcase with ⟨target, _, hs⟩ | ⟨_, hs⟩
      · subst hs
        exact fun c hc => plan_line_actions_mem hc
      · subst hs
        exact fun c hc => plan_minimal_mem hc

/-! ## The basic fallback strategy -/

theorem basicBranch1_none_active (heights : List Int) (holes : Nat) :
    basicBranch1 heights holes none = none := by
  show (if 3 < holes then none else none : Option String) = none
  exact ite_self none

theorem basicBranch1_empty_active (heights : List Int) (holes : Nat) :
    basicBranch1 heights holes (some []) = none := by
  show (if 3 < holes then none else none : Option String) = none
  exact ite_self none

theorem basicBranch2_none_active (heights : List Int) (bumpiness : Int) :
    basicBranch2 heights bumpiness none = none := by
  show (if 5 < bumpiness then none else none : Option String) = none
  exact ite_self none

theorem basicBranch2_empty_active (heights : List Int) (bumpiness : Int) :
    basicBranch2 heights bumpiness (some []) = none := by
  show (if 5 < bumpiness then none else none : Option String) = none
  exact ite_self none

theorem basic_strategy_b1 {heights : List Int} {holes : Nat} {bumpiness : Int}
    {active : Option (List (Nat × Nat))} {o : Oracle} {s : String}
    (h : basicBranch1 heights holes active = some s) :
    basic_strategy heights holes bumpiness active o = s := by
  rw [basic_strategy, h]

theorem basic_strategy_b2 {heights : List Int} {holes : Nat} {bumpiness : Int}
    {active : Option (List (Nat × Nat))} {o : Oracle} {s : String}
    (h1 : basicBranch1 heights holes active = none)
    (h2 : basicBranch2 heights bumpiness active = some s) :
    basic_strategy heights holes bumpiness active o = s := by
  rw [basic_strategy, h1, h2]

theorem basic_strategy_tail {heights : List Int} {holes : Nat} {bumpiness : Int}
    {active : Option (List (Nat × Nat))} {o : Oracle}
    (h1 : basicBranch1 heights holes active = none)
    (h2 : basicBranch2 heights bumpiness active = none) :
    basic_strategy heights holes bumpiness active o =
      (if o.rotBasic then (if o.rotBasicCW then "ROTATE_CW" else "ROTATE_CCW")
       else if o.dropBasic then "DROP" else weighted_choice o) := by
  rw [basic_strategy, h1, h2]

theorem basic_strategy_none (heights : List Int) (holes : Nat) (bumpiness : Int)
    (o : Oracle) :
    basic_strategy heights holes bumpiness none o =
      (if o.rotBasic then (if o.rotBasicCW then "ROTATE_CW" else "ROTATE_CCW")
       else if o.dropBasic then "DROP" else weighted_choice o) :=
  basic_strategy_tail (basicBranch1_none_active heights holes)
    (basicBranch2_none_active heights bumpiness)

theorem basicBranch1_ne {heights : List Int} {holes : Nat}
    {active : Option (List (Nat × Nat))} {s : String}
    (h : basicBranch1 heights holes active = some s) : s ≠ "" := by
  rcases active with _ | ⟨_ | ⟨c, ca⟩⟩
  · rw [basicBranch1_none_active] at h
    exact Option.noConfusion h
  · rw [basicBranch1_empty_active] at h
    exact Option.noConfusion h
  · have h2 : (if 3 < holes then
        some (if c.2 < pyMinIndex heights then "RIGHT"
              else if pyMinIndex heights < c.2 then "LEFT" else "DROP")
        else none : Option String) = some s := h
    by_cases h3 : 3 < holes
    · rw [if_pos h3, Option.some.injEq] at h2
      subst h2
      by_cases ha : c.2 < pyMinIndex heights
      · rw [if_pos ha]
        decide
      · rw [if_neg ha]
        by_cases hb : pyMinIndex heights < c.2
        · rw [if_pos hb]
          decide
        · rw [if_neg hb]
          decide
    · rw [if_neg h3] at h2
      exact Option.noConfusion h2

theorem basicBranch2_ne {heights : List Int} {bumpiness : Int}
    {active : Option (List (Nat × Nat))} {s : String}
    (h : basicBranch2 heights bumpiness active = some s) : s ≠ "" := by
  rcases active with _ | ⟨_ | ⟨c, ca⟩⟩
  · rw [basicBranch2_none_active] at h
    exact Option.noConfusion h
  · rw [basicBranch2_empty_active] at h
    exact Option.noConfusion h
  · have h2 : (if 5 < bumpiness then
        (if c.2 = pyMaxIndex heights then
          some (if Frac.div (matrix_width : Int) 2 < Frac.ofInt (pyMaxIndex heights : Int)
            then "LEFT" else "RIGHT")
         else none)
        else none : Option String) = some s := h
    by_cases h5 : 5 < bumpiness
    · rw [if_pos h5] at h2
      by_cases hm : c.2 = pyMaxIndex heights
      · rw [if_pos hm, Option.some.injEq] at h2
        subst h2
        by_cases hf : Frac.div (matrix_width : Int) 2 < Frac.ofInt (pyMaxIndex heights : Int)
        · rw [if_pos hf]
          decide
        · rw [if_neg hf]
          decide
      · rw [if_neg hm] at h2
        exact Option.noConfusion h2
    · rw [if_neg h5] at h2
      exact Option.noConfusion h2

theorem basic_tail_ne (o : Oracle) :
    (if o.rotBasic then (if o.rotBasicCW then "ROTATE_CW" else "ROTATE_CCW")
     else if o.dropBasic then "DROP" else weighted_choice o) ≠ "" := by
  by_cases hr : o.rotBasic = true
  · rw [if_pos hr]
    by_cases hcw : o.rotBasicCW = true
    · rw [if_pos hcw]
      decide
    · rw [if_neg hcw]
      decide
  · rw [if_neg hr]
    by_cases hd : o.dropBasic = true
    · rw [if_pos hd]
      decide
    · rw [if_neg hd]
      exact weighted_choice_ne o

theorem basic_strategy_ne (heights : List Int) (holes : Nat) (bumpiness : Int)
    (active : Option (List (Nat × Nat))) (o : Oracle) :
    basic_strategy heights holes bumpiness active o ≠ "" := by
  cases h1 : basicBranch1 heights holes active with
  | some s =>
    rw [basic_strategy_b1 h1]
    exact basicBranch1_ne h1
  | none =>
    cases h2 : basicBranch2 heights bumpiness active with
    | some s =>
      rw [basic_strategy_b2 h1 h2]
      exact basicBranch2_ne h2
    | none =>
      rw [basic_strategy_tail h1 h2]
      exact basic_tail_ne o

theorem get_column_heights_ok {m : Matrix} (h : wf_lines m = true) :
    ∃ hs, get_column_heights m = Except.ok hs := by
  refine ⟨(List.range matrix_width).map (fun c => (colHeight m c).toOption.getD 0), ?_⟩
  rw [get_column_heights]
  exact heightsAux_map _ (fun c _ => by
    obtain ⟨v, hv⟩ := colHeight_ok h c
    rw [hv]
    rfl)

/-! ## Unfolding `decide_move` along the planning path -/

theorem decide_move_plan_cons {last : Option Matrix} {m : Matrix} (hm : m ≠ [])
    (o : Oracle) {hs : List Int} (hh : get_column_heights m = Except.ok hs)
    {hl : Nat} (hhl : count_holes m = Except.ok hl)
    {ap : Option (List (Nat × Nat))}
    (hap : identify_active_piece m last = Except.ok ap)
    {a : String} {rest : List String}
    (hsq : plan_action_sequence m hs ap o = Except.ok (a :: rest)) :
    decide_move ⟨last, []⟩ m o = Except.ok (a, ⟨some m, rest⟩) := by
  rw [decide_move, if_neg hm]
  show (get_column_heights m >>= fun heights =>
    count_holes m >>= fun holes =>
    identify_active_piece m last >>= fun active =>
    plan_action_sequence m heights active o >>= fun seq =>
    match seq with
    | a :: rest => pure (a, (⟨some m, rest⟩ : StrategyState))
    | [] => pure (basic_strategy heights holes (calculate_bumpiness heights)
        active o, (⟨some m, []⟩ : StrategyState))) = _
  rw [hh, ok_bind, hhl, ok_bind, hap, ok_bind, hsq, ok_bind]
  rfl

theorem decide_move_plan_nil {last : Option Matrix} {m : Matrix} (hm : m ≠ [])
    (o : Oracle) {hs : List Int} (hh : get_column_heights m = Except.ok hs)
    {hl : Nat} (hhl : count_holes m = Except.ok hl)
    {ap : Option (List (Nat × Nat))}
    (hap : identify_active_piece m last = Except.ok ap)
    (hsq : plan_action_sequence m hs ap o = Except.ok []) :
    decide_move ⟨last, []⟩ m o = Except.ok
      (basic_strategy hs hl (calculate_bumpiness hs) ap o, ⟨some m, []⟩) := by
  rw [decide_move, if_neg hm]
  show (get_column_heights m >>= fun heights =>
    count_holes m >>= fun holes =>
    identify_active_piece m last >>= fun active =>
    plan_action_sequence m heights active o >>= fun seq =>
    match seq with
    | a :: rest => pure (a, (⟨some m, rest⟩ : StrategyState))
    | [] => pure (basic_strategy heights holes (calculate_bumpiness heights)
        active o, (⟨some m, []⟩ : StrategyState))) = _
  rw [hh, ok_bind, hhl, ok_bind, hap, ok_bind, hsq, ok_bind]
  rfl

/-! ## C3: totality of `decide_move` -/

/-- C3 failing input: a row that has `cells` but no `line` field. -/
def mC3 : Matrix := [⟨none, some [1, 1, 1, 1, 1, 1, 1, 1, 1, 1]⟩]

/-- C3 counterexample: on a snapshot whose single row carries `cells` but
no `line` field, `decide_move` raises (`row["line"]` KeyError inside
`_get_column_heights`) instead of returning a command. -/
theorem C3_counterexample :
    decide_move ⟨none, []⟩ mC3 o0 = Except.error () := by decide

/-- C3 (amended): for every snapshot in which each row that carries a
`cells` field also carries a `line` field — rows may still be sparse,
short, or lack `cells` entirely, and the snapshot may be empty — and
every state whose queued commands are non-empty strings, `decide_move`
returns a non-empty command string and never raises. -/
theorem C3_total_nonempty (st : StrategyState) (m : Matrix) (o : Oracle)
    (hwf : wf_lines m = true)
    (hq : ∀ c ∈ st.current_action_sequence, c ≠ "") :
    ∃ cmd st2, decide_move st m o = Except.ok (cmd, st2) ∧ cmd ≠ "" := by
  obtain ⟨last, seq⟩ := st
  by_cases hm : m = []
  · subst hm
    exact ⟨random_move o, ⟨last, seq⟩, by rw [decide_move, if_pos rfl],
      random_move_ne o⟩
  · cases hseq : seq with
    | cons a rest =>
      refine ⟨a, ⟨some m, rest⟩, ?_, hq a (by rw [hseq]; exact List.mem_cons_self _ _)⟩
      exact decide_move_pop last a rest hm o
    | nil =>
      subst hseq
      obtain ⟨hts, hh⟩ := get_column_heights_ok hwf
      obtain ⟨hcount, hhl⟩ := count_holes_ok hwf
      obtain ⟨ap, hap⟩ := identify_active_piece_ok hwf last
      obtain ⟨sq, hsq⟩ := plan_action_sequence_ok hwf hts ap o
      cases sq with
      | nil =>
        exact ⟨basic_strategy hts hcount (calculate_bumpiness hts) ap o,
          ⟨some m, []⟩, decide_move_plan_nil hm o hh hhl hap hsq,
          basic_strategy_ne _ _ _ _ _⟩
      | cons a rest =>
        exact ⟨a, ⟨some m, rest⟩, decide_move_plan_cons hm o hh hhl hap hsq,
          plan_action_sequence_mem hsq a (List.mem_cons_self _ _)⟩

/-- C3 witness: the amended claim evaluated at the one-row snapshot
`mPlain` with an empty queue. -/
theorem C3_total_nonempty_witness :
    wf_lines mPlain = true ∧
      ∃ cmd st2, decide_move ⟨none, []⟩ mPlain o0 = Except.ok (cmd, st2) ∧
        cmd ≠ "" :=
  ⟨by decide, C3_total_nonempty ⟨none, []⟩ mPlain o0 (by decide)
    (fun c hc => absurd hc (List.not_mem_nil c))⟩

/-! ## C10: the fallback is reached only with an empty estimate -/

/-- C10: whenever the active-piece estimate is non-empty, the planned
sequence is non-empty (so the basic fallback is never reached with a
non-empty estimate); and with an empty (`None`) estimate the fallback's
`holes > 3` and `bumpiness > 5` branches never return a command — the
fallback yields only a random rotation, `DROP`, or the weighted random
move. -/
theorem C10_fallback_shape (m : Matrix) (heights : List Int) (holes : Nat)
    (bumpiness : Int) (a : Nat × Nat) (ac : List (Nat × Nat)) (o : Oracle) :
    (∀ s, plan_action_sequence m heights (some (a :: ac)) o = Except.ok s →
      s ≠ []) ∧
    basic_strategy heights holes bumpiness none o =
      (if o.rotBasic then (if o.rotBasicCW then "ROTATE_CW" else "ROTATE_CCW")
       else if o.dropBasic then "DROP" else weighted_choice o) :=
  ⟨fun _ hs => plan_action_sequence_nonempty hs,
   basic_strategy_none heights holes bumpiness o⟩

/-- C10 witness: the two conjuncts evaluated at a concrete snapshot,
estimate and randomness outcome. -/
theorem C10_fallback_shape_witness :
    (["DROP"] : List String) ≠ [] ∧
    basic_strategy (List.replicate matrix_width 0) 0 0 none o0 =
      (if o0.rotBasic then (if o0.rotBasicCW then "ROTATE_CW" else "ROTATE_CCW")
       else if o0.dropBasic then "DROP" else weighted_choice o0) :=
  ⟨(C10_fallback_shape mPlain (List.replicate matrix_width 0) 0 0 (0, 0) [] o0).1
      ["DROP"] (by decide),
   (C10_fallback_shape mPlain (List.replicate matrix_width 0) 0 0 (0, 0) [] o0).2⟩

/-! ## C9: identical snapshots -/

theorem findLastRow_self {m : Matrix} (hd : (m.filterMap (fun r => r.line?)).Nodup)
    {r : Row} (hr : r ∈ m) {ln : Nat} (hln : r.line? = some ln)
    (hc : r.cells?.isSome = true) : findLastRow m ln = some r := by
  induction m with
  | nil => cases hr
  | cons h0 rest ih =>
    rcases List.mem_cons.mp hr with rfl | hmem
    · rw [findLastRow]
      exact List.find?_cons_of_pos _ (by rw [hln, hc]; simp)
    · cases hl0 : h0.line? with
      | none =>
        simp only [List.filterMap_cons, hl0] at hd
        have hne : (h0.line? == some ln && h0.cells?.isSome) = false := by
          rw [hl0]
          simp
        rw [findLastRow]
        rw [@List.find?_cons_of_neg _
          (fun lr => lr.line? == some ln && lr.cells?.isSome) h0 rest
          (ne_true_of_eq_false hne)]
        exact ih hd hmem
      | some l0 =>
        simp only [List.filterMap_cons, hl0] at hd
        rw [List.nodup_cons] at hd
        have hne : (h0.line? == some ln && h0.cells?.isSome) = false := by
          rw [hl0]
          by_cases heq : l0 = ln
          · exfalso
            subst heq
            exact hd.1 (List.mem_filterMap.mpr ⟨r, hmem, hln⟩)
          · simp [heq]
        rw [findLastRow]
        rw [@List.find?_cons_of_neg _
          (fun lr => lr.line? == some ln && lr.cells?.isSome) h0 rest
          (ne_true_of_eq_false hne)]
        exact ih hd.2 hmem

theorem activeCellsInRow_self {m : Matrix}
    (hd : (m.filterMap (fun r => r.line?)).Nodup)
    (hw : wf_lines m = true) {r : Row} (hr : r ∈ m) :
    activeCellsInRow m r = Except.ok [] := by
  cases hc : r.cells? with
  | none =>
    rw [activeCellsInRow]
    simp only [hc]
  | some cs =>
    obtain ⟨l, hl⟩ := wf_lines_mem hw hr hc
    have hf : findLastRow m l = some r := findLastRow_self hd hr hl (by rw [hc]; rfl)
    have hfilter : ∀ n, (List.range n).filter
        (fun col => decide (0 < cs.getD col 0 ∧ cs.getD col 0 = 0)) = [] := by
      intro n
      apply List.filter_eq_nil_iff.mpr
      intro a _
      simp only [decide_eq_true_eq]
      omega
    rw [activeCellsInRow]
    simp only [hc, hl, hf, Option.getD_some, hfilter, List.map_nil]

theorem activeCells_all_nil {pm : Matrix} {rows : Matrix}
    (h : ∀ r ∈ rows, activeCellsInRow pm r = Except.ok []) :
    activeCells pm rows = Except.ok [] := by
  induction rows with
  | nil => rfl
  | cons r rest ih =>
    rw [activeCells]
    show (activeCellsInRow pm r >>= fun a => activeCells pm rest >>= fun b =>
      pure (a ++ b)) = _
    rw [h r (List.mem_cons_self _ _), ok_bind,
      ih (fun x hx => h x (List.mem_cons_of_mem _ hx)), ok_bind]
    rfl

/-- C9 counterexample input: two rows sharing line number 0. -/
def mC9 : Matrix := [⟨some 0, some [0]⟩, ⟨some 0, some [1]⟩]

/-- C9 counterexample: feeding the snapshot `mC9` (which contains two
rows with the same line number) as both the current and previous
snapshot, the estimate is the non-empty `[(0, 0)]`, not empty: the row
search finds the first row with line 0 and diffs the second against it. -/
theorem C9_counterexample :
    identify_active_piece mC9 (some mC9) = Except.ok (some [(0, 0)]) ∧
      Except.ok (some [(0, 0)]) ≠
        (Except.ok none : Except Unit (Option (List (Nat × Nat)))) := by decide

/-- C9 (amended): for every well-formed snapshot whose rows carry
pairwise-distinct line numbers, comparing the snapshot against an
identical previous snapshot yields an empty (`None`) active-piece
estimate. -/
theorem C9_identical_empty (m : Matrix) (hw : wf_lines m = true)
    (hd : distinct_lines m = true) :
    identify_active_piece m (some m) = Except.ok none := by
  by_cases hm : m = []
  · subst hm
    rfl
  · have hd2 : (m.filterMap (fun r => r.line?)).Nodup := of_decide_eq_true hd
    rw [identify_active_piece, if_neg hm]
    show (activeCells m m >>= fun a =>
      pure (if a = [] then none else some a)) = _
    rw [activeCells_all_nil (fun r hr => activeCellsInRow_self hd2 hw hr), ok_bind]
    rfl

/-- C9 witness: the amended claim evaluated on the snapshot `mPlain`. -/
theorem C9_identical_empty_witness :
    wf_lines mPlain = true ∧ distinct_lines mPlain = true ∧
      identify_active_piece mPlain (some mPlain) = Except.ok none :=
  ⟨by decide, by decide, C9_identical_empty mPlain (by decide) (by decide)⟩

/-! ## C5: target selection among potential lines -/

theorem pyMaxStep_some (q a : Nat × Nat) :
    pyMaxStep (some q) a = if q.2 < a.2 then some a else some q := rfl

theorem pyMaxByFill_acc : ∀ (l : List (Nat × Nat)) (q : Nat × Nat),
    ∃ p, l.foldl pyMaxStep (some q) = some p ∧
      (∀ x ∈ l, x.2 ≤ p.2) ∧ q.2 ≤ p.2 ∧
      (p = q ∨ ∃ l1 l2, l = l1 ++ p :: l2 ∧ q.2 < p.2 ∧ ∀ x ∈ l1, x.2 < p.2)
  | [], q => ⟨q, rfl, by simp, le_refl _, Or.inl rfl⟩
  | a :: l, q => by
    by_cases hq : q.2 < a.2
    · obtain ⟨p, hp, hall, haq, hcase⟩ := pyMaxByFill_acc l a
      refine ⟨p, ?_, ?_, le_of_lt (lt_of_lt_of_le hq haq), ?_⟩
      · rw [List.foldl_cons, pyMaxStep_some, if_pos hq]
        exact hp
      · intro x hx
        rcases List.mem_cons.mp hx with rfl | hx2
        · exact haq
        · exact hall x hx2
      · rcases hcase with rfl | ⟨l1, l2, rfl, hqp, hl1⟩
        · exact Or.inr ⟨[], l, rfl, hq, fun x hx => absurd hx (List.not_mem_nil x)⟩
        · refine Or.inr ⟨a :: l1, l2, rfl, lt_trans hq hqp, fun x hx => ?_⟩
          rcases List.mem_cons.mp hx with rfl | hx2
          · exact hqp
          · exact hl1 x hx2
    · obtain ⟨p, hp, hall, haq, hcase⟩ := pyMaxByFill_acc l q
      refine ⟨p, ?_, ?_, haq, ?_⟩
      · rw [List.foldl_cons, pyMaxStep_some, if_neg hq]
        exact hp
      · intro x hx
        rcases List.mem_cons.mp hx with rfl | hx2
        · exact le_trans (Nat.le_of_not_lt hq) haq
        · exact hall x hx2
      · rcases hcase with rfl | ⟨l1, l2, rfl, hqp, hl1⟩
        · exact Or.inl rfl
        · refine Or.inr ⟨a :: l1, l2, rfl, hqp, fun x hx => ?_⟩
          rcases List.mem_cons.mp hx with rfl | hx2
          · exact lt_of_le_of_lt (Nat.le_of_not_lt hq) hqp
          · exact hl1 x hx2

theorem pyMaxByFill_first_max {pls : List (Nat × Nat)} (h : pls ≠ []) :
    ∃ p, pyMaxByFill pls = some p ∧ (∀ q ∈ pls, q.2 ≤ p.2) ∧
      ∃ l1 l2, pls = l1 ++ p :: l2 ∧ ∀ q ∈ l1, q.2 < p.2 := by
  cases pls with
  | nil => exact absurd rfl h
  | cons a l =>
    obtain ⟨p, hp, hall, haq, hcase⟩ := pyMaxByFill_acc l a
    refine ⟨p, ?_, ?_, ?_⟩
    · rw [pyMaxByFill, List.foldl_cons]
      exact hp
    · intro x hx
      rcases List.mem_cons.mp hx with rfl | hx2
      · exact haq
      · exact hall x hx2
    · rcases hcase with rfl | ⟨l1, l2, rfl, hqp, hl1⟩
      · exact ⟨[], l, rfl, fun x hx => absurd hx (List.not_mem_nil x)⟩
      · refine ⟨a :: l1, l2, rfl, fun x hx => ?_⟩
        rcases List.mem_cons.mp hx with rfl | hx2
        · exact hqp
        · exact hl1 x hx2

/-- C5 counterexample input: two potential lines, each with 7 occupied
cells (a tie). -/
def mC5 : Matrix :=
  [⟨some 3, some [1, 1, 1, 1, 1, 1, 1, 0, 0, 0]⟩,
   ⟨some 8, some [0, 0, 0, 1, 1, 1, 1, 1, 1, 1]⟩]

/-- C5 counterexample: on the tie snapshot `mC5` Python's `max` (the
Planner's target selection) yields the FIRST maximal potential line
`(3, 7)`, whereas the claim's last-encountered tie-break would yield
`(8, 7)`. -/
theorem C5_counterexample :
    identify_potential_lines mC5 = Except.ok [(3, 7), (8, 7)] ∧
      pyMaxByFill [(3, 7), (8, 7)] = some (3, 7) ∧
      lastMaxByFill [(3, 7), (8, 7)] = some (8, 7) ∧
      ((3, 7) : Nat × Nat) ≠ (8, 7) := by decide

/-- C5 (amended): for every snapshot with at least one potential line the
Planner targets a line with the maximal fill count, and when several
potential lines share that maximal fill it selects the one encountered
FIRST in scan order (Python `max` keeps the first maximum); the planned
sequence is then built for that target. -/
theorem C5_first_max_target (m : Matrix) (pls : List (Nat × Nat))
    (hpls : identify_potential_lines m = Except.ok pls) (hne : pls ≠ []) :
    ∃ p, pyMaxByFill pls = some p ∧ (∀ q ∈ pls, q.2 ≤ p.2) ∧
      (∃ l1 l2, pls = l1 ++ p :: l2 ∧ ∀ q ∈ l1, q.2 < p.2) ∧
      ∀ (heights : List Int) (ac : List (Nat × Nat)) (o : Oracle), ac ≠ [] →
        plan_action_sequence m heights (some ac) o =
          Except.ok (plan_line_actions m p.1 ac o) := by
  obtain ⟨p, hp, hall, hfirst⟩ := pyMaxByFill_first_max hne
  refine ⟨p, hp, hall, hfirst, fun heights ac o hac => ?_⟩
  rw [plan_some, if_neg hac, hpls, ok_bind, hp]
  rfl

/-- C5 witness: the amended claim evaluated on the tie snapshot `mC5`. -/
theorem C5_first_max_target_witness :
    identify_potential_lines mC5 = Except.ok [(3, 7), (8, 7)] ∧
      ∃ p, pyMaxByFill [(3, 7), (8, 7)] = some p ∧
        (∀ q ∈ [(3, 7), (8, 7)], q.2 ≤ p.2) ∧
        (∃ l1 l2, [(3, 7), (8, 7)] = l1 ++ p :: l2 ∧ ∀ q ∈ l1, q.2 < p.2) ∧
        ∀ (heights : List Int) (ac : List (Nat × Nat)) (o : Oracle), ac ≠ [] →
          plan_action_sequence mC5 heights (some ac) o =
            Except.ok (plan_line_actions mC5 p.1 ac o) :=
  ⟨by decide, C5_first_max_target mC5 [(3, 7), (8, 7)] (by decide) (by decide)⟩

/-! ## C4: the minimal-height sequence -/

theorem ite_replicate_length_le {P : Prop} [Decidable P] {a b : String}
    (x y : Int) :
    (if P then List.replicate (min 3 x).toNat a
     else List.replicate (min 3 y).toNat b).length ≤ 3 := by
  have h1 : (min 3 x).toNat ≤ 3 :=
    Int.toNat_le.mpr (by exact_mod_cast min_le_left (3 : Int) x)
  have h2 : (min 3 y).toNat ≤ 3 :=
    Int.toNat_le.mpr (by exact_mod_cast min_le_left (3 : Int) y)
  by_cases hp : P
  · rw [if_pos hp, List.length_replicate]
    exact h1
  · rw [if_neg hp, List.length_replicate]
    exact h2

theorem take4_props {mv : List String} {rot : String} {useRot : Bool}
    (hmv : mv.length ≤ 3) :
    (((if useRot then mv ++ [rot] else mv) ++ ["DROP"]).take 4).length ≤ 4 ∧
    ((if useRot then mv ++ [rot] else mv) ++ ["DROP"]).take 4 ≠ [] ∧
    ((((if useRot then mv ++ [rot] else mv) ++ ["DROP"]).take 4).getLast? =
        some "DROP" ∨
      (useRot = true ∧
        (((if useRot then mv ++ [rot] else mv) ++ ["DROP"]).take 4).length = 4 ∧
        (((if useRot then mv ++ [rot] else mv) ++ ["DROP"]).take 4).getLast? =
          some rot)) := by
  cases useRot with
  | false =>
    rw [if_neg (by simp)]
    have hlen : (mv ++ ["DROP"]).length ≤ 4 := by
      rw [List.length_append]
      simp only [List.length_singleton]
      omega
    rw [List.take_of_length_le hlen]
    exact ⟨hlen, by simp, Or.inl (List.getLast?_concat _)⟩
  | true =>
    rw [if_pos rfl]
    by_cases h3 : mv.length = 3
    · have hlen : (mv ++ [rot]).length = 4 := by
        rw [List.length_append]
        simp only [List.length_singleton]
        omega
      have htake : ((mv ++ [rot]) ++ ["DROP"]).take 4 = mv ++ [rot] := by
        rw [← hlen]
        exact List.take_left _ _
      rw [htake]
      refine ⟨le_of_eq hlen, by simp, Or.inr ⟨rfl, hlen, List.getLast?_concat _⟩⟩
    · have hlen : ((mv ++ [rot]) ++ ["DROP"]).length ≤ 4 := by
        rw [List.length_append, List.length_append]
        simp only [List.length_singleton]
        omega
      rw [List.take_of_length_le hlen]
      exact ⟨hlen, by simp, Or.inl (List.getLast?_concat _)⟩

/-- C4 counterexample snapshot: one row, no potential line, lowest
column on the right. -/
def mC4 : Matrix := [⟨some 19, some [1, 1, 1, 1, 1, 1, 0, 0, 0, 0]⟩]

/-- Randomness outcome in which the probability-0.4 rotation of the
minimal-height plan fires (clockwise). -/
def oRot : Oracle := ⟨0, false, true, true, false, false, false, 0⟩

/-- C4 counterexample: on `mC4` (no potential line), with the active
piece at column 0, the lowest column 6 and the 0.4-rotation firing, the
planned minimal-height sequence is `[RIGHT, RIGHT, RIGHT, ROTATE_CW]`:
the trailing `DROP` is cut by the `[:4]` truncation, so the last command
is not `DROP`. -/
theorem C4_counterexample :
    get_column_heights mC4 = Except.ok [1, 1, 1, 1, 1, 1, 0, 0, 0, 0] ∧
      identify_potential_lines mC4 = Except.ok [] ∧
      plan_action_sequence mC4 [1, 1, 1, 1, 1, 1, 0, 0, 0, 0]
          (some [(0, 0)]) oRot =
        Except.ok ["RIGHT", "RIGHT", "RIGHT", "ROTATE_CW"] ∧
      (["RIGHT", "RIGHT", "RIGHT", "ROTATE_CW"] : List String).getLast? ≠
        some "DROP" := by decide

/-- C4 (amended): for every snapshot with no potential line, every
non-empty active-piece estimate and every randomness outcome, the
minimal-height sequence has at most 4 commands and is non-empty; its
last command is `DROP` except when three movement steps were emitted and
the 0.4-probability rotation fired, in which case the truncation to 4
cuts the `DROP` and the last command is the chosen rotation. -/
theorem C4_minimal_height_shape (m : Matrix) (heights : List Int)
    (a : Nat × Nat) (ac : List (Nat × Nat)) (o : Oracle) (s : List String)
    (hpl : identify_potential_lines m = Except.ok [])
    (hplan : plan_action_sequence m heights (some (a :: ac)) o = Except.ok s) :
    s.length ≤ 4 ∧ s ≠ [] ∧
      (s.getLast? = some "DROP" ∨
        (o.rotMin = true ∧ s.length = 4 ∧
          s.getLast? = some (if o.rotMinCW then "ROTATE_CW" else "ROTATE_CCW"))) := by
  rw [plan_some, if_neg (List.cons_ne_nil a ac), hpl, ok_bind] at hplan
  have hplan2 : (Except.ok (plan_minimal_height_sequence heights (a :: ac) o) :
      Except Unit (List String)) = Except.ok s := hplan
  have hs : s = plan_minimal_height_sequence heights (a :: ac) o :=
    ((Except.ok.injEq _ _).mp hplan2).symm
  subst hs
  exact take4_props (ite_replicate_length_le _ _)

/-- C4 witness: the amended claim evaluated at the counterexample input,
where the right disjunct (rotation last) is the one that holds. -/
theorem C4_minimal_height_shape_witness :
    (["RIGHT", "RIGHT", "RIGHT", "ROTATE_CW"] : List String).length ≤ 4 ∧
      (["RIGHT", "RIGHT", "RIGHT", "ROTATE_CW"] : List String) ≠ [] ∧
      ((["RIGHT", "RIGHT", "RIGHT", "ROTATE_CW"] : List String).getLast? =
          some "DROP" ∨
        (oRot.rotMin = true ∧
          (["RIGHT", "RIGHT", "RIGHT", "ROTATE_CW"] : List String).length = 4 ∧
          (["RIGHT", "RIGHT", "RIGHT", "ROTATE_CW"] : List String).getLast? =
            some (if oRot.rotMinCW then "ROTATE_CW" else "ROTATE_CCW"))) :=
  C4_minimal_height_shape mC4 [1, 1, 1, 1, 1, 1, 0, 0, 0, 0] (0, 0) [] oRot
    ["RIGHT", "RIGHT", "RIGHT", "ROTATE_CW"] (by decide) (by decide)

/-! ## C8: height bounds -/

theorem err_bind {α β : Type} (f : α → Except Unit β) :
    (Except.error () >>= f : Except Unit β) = Except.error () := rfl

theorem heightsAux_inv {m : Matrix} : ∀ {cols : List Nat} {hs : List Int},
    heightsAux m cols = Except.ok hs →
    hs.length = cols.length ∧
      ∀ i, i < cols.length →
        colHeight m (cols.getD i 0) = Except.ok (hs.getD i 0) := by
  intro cols
  induction cols with
  | nil =>
    intro hs h
    have : hs = [] := ((Except.ok.injEq _ _).mp h).symm
    subst this
    exact ⟨rfl, fun i hi => absurd hi (Nat.not_lt_zero i)⟩
  | cons c cs ih =>
    intro hs h
    rw [heightsAux] at h
    have h2 : (colHeight m c >>= fun v => heightsAux m cs >>= fun rest =>
        pure (v :: rest)) = Except.ok hs := h
    cases hv : colHeight m c with
    | error e => rw [hv, err_bind] at h2; exact Except.noConfusion h2
    | ok v =>
      rw [hv, ok_bind] at h2
      cases hrest : heightsAux m cs with
      | error e => rw [hrest, err_bind] at h2; exact Except.noConfusion h2
      | ok rest =>
        rw [hrest, ok_bind] at h2
        have hhs : hs = v :: rest := ((Except.ok.injEq _ _).mp h2).symm
        subst hhs
        obtain ⟨hlen, hel⟩ := ih hrest
        refine ⟨by rw [List.length_cons, List.length_cons, hlen], fun i hi => ?_⟩
        cases i with
        | zero => rw [List.getD_cons_zero, List.getD_cons_zero]; exact hv
        | succ j =>
          rw [List.getD_cons_succ, List.getD_cons_succ]
          exact hel j (by simpa using hi)

theorem colHeight_bounds {m : Matrix} (hb : wf_bounds m = true) {col : Nat}
    {v : Int} (h : colHeight m col = Except.ok v) :
    0 ≤ v ∧ v ≤ (matrix_height : Int) := by
  rcases colHeight_shape col h with rfl | ⟨r, hr, l, hl, rfl⟩
  · simp [matrix_height]
  · have hlt := wf_bounds_mem hb hr hl
    simp only [matrix_height] at hlt ⊢
    omega

/-- C8: for every well-formed snapshot (each row with `cells` carries a
`line`, and each `line` is a valid 0-based index below the board height
20) the Analyzer's computed heights satisfy
`0 ≤ heights[c] ≤ board_height` for every column `c` in `[0, width-1]`. -/
theorem C8_height_bounds (m : Matrix) (h1 : wf_lines m = true)
    (h2 : wf_bounds m = true) :
    ∃ hs, get_column_heights m = Except.ok hs ∧ hs.length = matrix_width ∧
      ∀ c, c < matrix_width →
        0 ≤ hs.getD c 0 ∧ hs.getD c 0 ≤ (matrix_height : Int) := by
  obtain ⟨hs, hh⟩ := get_column_heights_ok h1
  obtain ⟨hlen, hel⟩ := @heightsAux_inv m (List.range matrix_width) hs hh
  refine ⟨hs, hh, by rw [hlen, List.length_range], fun c hc => ?_⟩
  have hc2 : c < (List.range matrix_width).length := by
    rw [List.length_range]
    exact hc
  have := hel c hc2
  rw [List.getD_eq_getElem _ _ hc2, List.getElem_range] at this
  exact colHeight_bounds h2 this

/-- C8 witness: the bounds evaluated on the snapshot `mPlain`. -/
theorem C8_height_bounds_witness :
    wf_lines mPlain = true ∧ wf_bounds mPlain = true ∧
      ∃ hs, get_column_heights mPlain = Except.ok hs ∧
        hs.length = matrix_width ∧
        ∀ c, c < matrix_width →
          0 ≤ hs.getD c 0 ∧ hs.getD c 0 ≤ (matrix_height : Int) :=
  ⟨by decide, by decide, C8_height_bounds mPlain (by decide) (by decide)⟩

/-! ## C7: the two-pass hole count -/

theorem columnTopsRow_getD {tops : List Nat} {l : Nat} {cs : List Nat}
    {col : Nat} (hcol : col < matrix_width) :
    (columnTopsRow tops l cs).getD col matrix_height =
      if col < min cs.length matrix_width ∧ 0 < cs.getD col 0 then
        min (tops.getD col matrix_height) l
      else tops.getD col matrix_height := by
  rw [columnTopsRow]
  have hlen : col < ((List.range matrix_width).map (fun col =>
      if col < min cs.length matrix_width ∧ 0 < cs.getD col 0 then
        min (tops.getD col matrix_height) l
      else tops.getD col matrix_height)).length := by
    rw [List.length_map, List.length_range]
    exact hcol
  rw [List.getD_eq_getElem _ _ hlen, List.getElem_map, List.getElem_range]

theorem column_tops_lt {rows : Matrix} : ∀ {tops0 tops : List Nat},
    column_tops rows tops0 = Except.ok tops →
    ∀ col x, col < matrix_width →
      (tops.getD col matrix_height < x ↔
        tops0.getD col matrix_height < x ∨
        ∃ r ∈ rows, ∃ l cs, r.line? = some l ∧ r.cells? = some cs ∧
          col < min cs.length matrix_width ∧ 0 < cs.getD col 0 ∧ l < x) := by
  induction rows with
  | nil =>
    intro tops0 tops h col x _
    have heq : tops = tops0 := ((Except.ok.injEq _ _).mp h).symm
    subst heq
    simp
  | cons r rest ih =>
    intro tops0 tops h col x hcol
    cases hc : r.cells? with
    | none =>
      rw [column_tops] at h
      simp only [hc] at h
      rw [ih h col x hcol]
      constructor
      · rintro (h1 | ⟨r', hr', rest'⟩)
        · exact Or.inl h1
        · exact Or.inr ⟨r', List.mem_cons_of_mem _ hr', rest'⟩
      · rintro (h1 | ⟨r', hr', l', cs', hl', hc', hcm', hocc', hlx'⟩)
        · exact Or.inl h1
        · rcases List.mem_cons.mp hr' with rfl | hmem
          · rw [hc] at hc'
            exact Option.noConfusion hc'
          · exact Or.inr ⟨r', hmem, l', cs', hl', hc', hcm', hocc', hlx'⟩
    | some cs =>
      cases hl : r.line? with
      | none =>
        rw [column_tops] at h
        simp only [hc, hl] at h
        exact Except.noConfusion h
      | some l =>
        rw [column_tops] at h
        simp only [hc, hl] at h
        rw [ih h col x hcol, columnTopsRow_getD hcol]
        by_cases hcond : col < min cs.length matrix_width ∧ 0 < cs.getD col 0
        · rw [if_pos hcond]
          constructor
          · rintro (h1 | ⟨r', hr', l', cs', hl', hc', hcm', hocc', hlx'⟩)
            · by_cases ht : tops0.getD col matrix_height < x
              · exact Or.inl ht
              · exact Or.inr ⟨r, List.mem_cons_self _ _, l, cs, hl, hc,
                  hcond.1, hcond.2, by omega⟩
            · exact Or.inr ⟨r', List.mem_cons_of_mem _ hr', l', cs', hl', hc',
                hcm', hocc', hlx'⟩
          · rintro (h1 | ⟨r', hr', l', cs', hl', hc', hcm', hocc', hlx'⟩)
            · exact Or.inl (by omega)
            · rcases List.mem_cons.mp hr' with rfl | hmem
              · have hll : l' = l := by
                  rw [hl] at hl'
                  exact ((Option.some.injEq _ _).mp hl').symm
                subst hll
                exact Or.inl (by omega)
              · exact Or.inr ⟨r', hmem, l', cs', hl', hc', hcm', hocc', hlx'⟩
        · rw [if_neg hcond]
          constructor
          · rintro (h1 | ⟨r', hr', l', cs', hl', hc', hcm', hocc', hlx'⟩)
            · exact Or.inl h1
            · exact Or.inr ⟨r', List.mem_cons_of_mem _ hr', l', cs', hl', hc',
                hcm', hocc', hlx'⟩
          · rintro (h1 | ⟨r', hr', l', cs', hl', hc', hcm', hocc', hlx'⟩)
            · exact Or.inl h1
            · rcases List.mem_cons.mp hr' with rfl | hmem
              · have hcc : cs' = cs := by
                  rw [hc] at hc'
                  exact ((Option.some.injEq _ _).mp hc').symm
                subst hcc
                exact absurd ⟨hcm', hocc'⟩ hcond
              · exact Or.inr ⟨r', hmem, l', cs', hl', hc', hcm', hocc', hlx'⟩

theorem column_tops_init_lt {m : Matrix} {tops : List Nat}
    (h : column_tops m (List.replicate matrix_width matrix_height) = Except.ok tops)
    {col x : Nat} (hcol : col < matrix_width) :
    (tops.getD col matrix_height < x ↔
      matrix_height < x ∨
      ∃ r ∈ m, ∃ l cs, r.line? = some l ∧ r.cells? = some cs ∧
        col < min cs.length matrix_width ∧ 0 < cs.getD col 0 ∧ l < x) := by
  have h2 := column_tops_lt h col x hcol
  rwa [List.getD_eq_getElem (List.replicate matrix_width matrix_height)
      matrix_height (by rw [List.length_replicate]; exact hcol),
    List.getElem_replicate] at h2

theorem occupiedAboveB_iff (m : Matrix) (l col : Nat) :
    occupiedAboveB m l col = true ↔
      ∃ r ∈ m, ∃ l2 cs, r.line? = some l2 ∧ r.cells? = some cs ∧
        col < min cs.length matrix_width ∧ 0 < cs.getD col 0 ∧ l2 < l := by
  rw [occupiedAboveB, List.any_eq_true]
  constructor
  · rintro ⟨r, hr, hb⟩
    obtain ⟨rl, rc⟩ := r
    cases rl with
    | none => exact absurd hb (by simp)
    | some l2 =>
      cases rc with
      | none => exact absurd hb (by simp)
      | some cs =>
        have hb2 : (decide (l2 < l) && decide (col < min cs.length matrix_width) &&
            decide (0 < cs.getD col 0)) = true := hb
        rw [Bool.and_eq_true, Bool.and_eq_true] at hb2
        exact ⟨⟨some l2, some cs⟩, hr, l2, cs, rfl, rfl,
          of_decide_eq_true hb2.1.2, of_decide_eq_true hb2.2,
          of_decide_eq_true hb2.1.1⟩
  · rintro ⟨r, hr, l2, cs, hl2, hc, h3, h4, h5⟩
    refine ⟨r, hr, ?_⟩
    obtain ⟨rl, rc⟩ := r
    have hrl : rl = some l2 := hl2
    have hrc : rc = some cs := hc
    subst hrl
    subst hrc
    show (decide (l2 < l) && decide (col < min cs.length matrix_width) &&
      decide (0 < cs.getD col 0)) = true
    rw [Bool.and_eq_true, Bool.and_eq_true]
    exact ⟨⟨decide_eq_true h5, decide_eq_true h3⟩, decide_eq_true h4⟩

theorem holes_pred_eq {m : Matrix} {tops : List Nat}
    (ht : column_tops m (List.replicate matrix_width matrix_height) = Except.ok tops)
    {l : Nat} (hl20 : l < matrix_height) (cs : List Nat) :
    ∀ col ∈ List.range (min cs.length matrix_width),
      decide (cs.getD col 0 = 0 ∧ tops.getD col matrix_height < l) =
        ((cs.getD col 0 == 0) && occupiedAboveB m l col) := by
  intro col hcol
  have hcol10 : col < matrix_width :=
    lt_of_lt_of_le (List.mem_range.mp hcol) (min_le_right _ _)
  have hiff : tops.getD col matrix_height < l ↔ occupiedAboveB m l col = true := by
    rw [column_tops_init_lt ht hcol10, occupiedAboveB_iff]
    constructor
    · rintro (h20 | hE)
      · exact absurd h20 (by omega)
      · exact hE
    · intro hE
      exact Or.inr hE
  cases hocc : occupiedAboveB m l col with
  | true =>
    have hB : tops.getD col matrix_height < l := hiff.mpr hocc
    rw [Bool.and_true]
    by_cases hA : cs.getD col 0 = 0
    · rw [decide_eq_true (And.intro hA hB)]
      exact (beq_iff_eq.mpr hA).symm
    · rw [decide_eq_false (fun hab => hA hab.1)]
      exact (beq_eq_false_iff_ne.mpr hA).symm
  | false =>
    have hnB : ¬ tops.getD col matrix_height < l := fun hB =>
      Bool.false_ne_true (hocc ▸ hiff.mp hB)
    rw [Bool.and_false, decide_eq_false (fun hab => hnB hab.2)]

/-- C7: the two-pass hole computation returns exactly the number of
cells that are empty and have at least one occupied cell above them (at
a strictly lower line number) in the same column, for every well-formed
snapshot. -/
theorem C7_holes_two_pass (m : Matrix) (h1 : wf_lines m = true)
    (h2 : wf_bounds m = true) :
    count_holes m = Except.ok (holesSpec m) := by
  obtain ⟨tops, ht⟩ := column_tops_ok h1 (List.replicate matrix_width matrix_height)
  have hrows : ∀ r ∈ m, holesInRow tops r = Except.ok
      ((fun r => match r.cells?, r.line? with
        | some cs, some l =>
          ((List.range (min cs.length matrix_width)).filter
            (fun col => (cs.getD col 0 == 0) && occupiedAboveB m l col)).length
        | _, _ => 0) r) := by
    intro r hr
    obtain ⟨rl, rc⟩ := r
    cases hrc : rc with
    | none =>
      subst hrc
      exact holesInRow_no_cells rfl
    | some cs =>
      subst hrc
      obtain ⟨l, hl⟩ := wf_lines_mem h1 hr rfl
      have hrl : rl = some l := hl
      subst hrl
      have hl20 : l < matrix_height := wf_bounds_mem h2 hr rfl
      rw [holesInRow_eval rfl rfl]
      exact congrArg Except.ok (congrArg List.length
        (List.filter_congr (holes_pred_eq ht hl20 cs)))
  rw [count_holes]
  show (column_tops m (List.replicate matrix_width matrix_height) >>= fun tops =>
    holes_pass2 tops m) = _
  rw [ht, ok_bind, holes_pass2_sum hrows]
  rfl

/-- C7 witness snapshot: column 0 has an occupied cell on line 18 above
an empty cell on line 19 — one hole. -/
def mC7 : Matrix := [⟨some 18, some [1, 0]⟩, ⟨some 19, some [0, 1]⟩]

/-- C7 witness: the two-pass count and the claim's count agree (value 1)
on the snapshot `mC7`. -/
theorem C7_holes_two_pass_witness :
    wf_lines mC7 = true ∧ wf_bounds mC7 = true ∧
      count_holes mC7 = Except.ok (holesSpec mC7) ∧ holesSpec mC7 = 1 :=
  ⟨by decide, by decide, C7_holes_two_pass mC7 (by decide) (by decide), by decide⟩

end Tetris
